import Mathlib

/-!
# Verification of the eothello engine-interoperability layer

Shallow embedding of `src/eothello/play.py`:

* the literal extractor and game-state mapper of `EothelloBot.parse_game_page`
  (the two `re.sub` clean-ups, the single-pass comma/quote/bracket scanner,
  the per-segment cleaning, and the positional mapping to a game record);
* the `ProcessHandler` engine channel (`send`, `recv`, `check_alive`, `kill`,
  `start`, `restart`) as a pure state-transition system over an abstract
  event describing what the operating system reported;
* `EothelloBot.get_ai_move` and `EothelloBot.process_game`.

Python-specific behaviours are modelled faithfully:

* `str.strip()` removes the full Unicode whitespace set at both ends;
* `str.replace(a, b)` replaces every non-overlapping occurrence, left to
  right;
* `int(s)` accepts an optional sign and a digit run with underscores
  strictly between digits; `float(s)` accepts the decimal grammar with an
  optional exponent.  Floats are represented by the exact rational value a
  literal denotes (the parse/branch structure is what the claims are about;
  IEEE rounding and overflow-to-infinity are abstracted away, and the
  sole call site only ever reaches `float` on strings containing `.`,
  which excludes the `inf`/`nan` spellings);
* `TimeoutError` is a subclass of `OSError` in Python 3, so the
  `isinstance(e, (BrokenPipeError, OSError))` test in `recv`'s handler is
  true for a receive timeout and clears `is_alive`.
-/

/-- Characters Python treats as whitespace: the set stripped by
`str.strip()` and matched by `\s` in `re` patterns on `str`. -/
def pySpaceChars : List Char :=
  ['\x09', '\x0a', '\x0b', '\x0c', '\x0d', '\x1c', '\x1d', '\x1e',
   '\x1f', '\x20', '\x85', '\xa0', '\u1680', '\u2000', '\u2001', '\u2002',
   '\u2003', '\u2004', '\u2005', '\u2006', '\u2007', '\u2008', '\u2009', '\u200a',
   '\u2028', '\u2029', '\u202f', '\u205f', '\u3000']

def pyIsSpace (c : Char) : Bool :=
  c ∈ pySpaceChars

/-- Model of `str.strip()` on the underlying character list. -/
def stripChars (l : List Char) : List Char :=
  ((l.dropWhile pyIsSpace).reverse.dropWhile pyIsSpace).reverse

/-- Model of `str.strip()`. -/
def pyStrip (s : String) : String :=
  (stripChars s.data).asString

/-- A `\w` word character (`re` word class; inputs in scope are ASCII). -/
def isWordChar (c : Char) : Bool :=
  c.isAlphanum || c = '_'

/-- Streaming model of `re.sub(r'(\w+):', r'"\1":', s)` (play.py line 343).
The accumulator `pending` holds the word-character run read so far.  A
maximal word run followed by `:` is wrapped in quotes; a run followed by
anything else is emitted unchanged (every proper suffix of such a run also
fails to match, so skipping the whole run agrees with the regex engine's
advance-by-one retry). -/
def sub1Aux : List Char → List Char → List Char
  | [], pending => pending
  | c :: rest, pending =>
    if isWordChar c then
      sub1Aux rest (pending ++ [c])
    else if c = ':' then
      if pending = [] then ':' :: sub1Aux rest []
      else '"' :: pending ++ '"' :: ':' :: sub1Aux rest []
    else
      pending ++ c :: sub1Aux rest []

/-- Model of `re.sub(r'(\w+):', r'"\1":', s)`. -/
def sub1 (l : List Char) : List Char :=
  sub1Aux l []

/-- Streaming model of `re.sub(r',\s*]', ']', s)` (play.py line 344).
The accumulator `pending` is empty or a comma followed by the whitespace
run read since it.  When a `]` arrives the pending `,\s*` is dropped; when
a non-space non-`]` arrives the pending text is emitted unchanged (a fresh
comma restarts the pending window, matching the regex engine's
advance-by-one retry, since no match can begin inside `\s*`). -/
def sub2Aux : List Char → List Char → List Char
  | [], pending => pending
  | c :: rest, pending =>
    if pending = [] then
      if c = ',' then sub2Aux rest [',']
      else c :: sub2Aux rest []
    else
      if pyIsSpace c then sub2Aux rest (pending ++ [c])
      else if c = ']' then ']' :: sub2Aux rest []
      else if c = ',' then pending ++ sub2Aux rest [',']
      else pending ++ c :: sub2Aux rest []

/-- Model of `re.sub(r',\s*]', ']', s)`. -/
def sub2 (l : List Char) : List Char :=
  sub2Aux l []

/-- Scanner state of the manual parameter-splitting loop
(play.py lines 347–351): completed segments, the segment being built, the
bracket-depth counter, the in-quoted-run toggle and the escape flag. -/
structure ScanState where
  params : List (List Char)
  current : List Char
  bracket : Int
  inString : Bool
  escapeNext : Bool
deriving DecidableEq, Repr

def scanInit : ScanState :=
  ⟨[], [], 0, false, false⟩

/-- One iteration of the `for char in params_str` loop
(play.py lines 353–379), in the source's branch order. -/
def scanStep (s : ScanState) (c : Char) : ScanState :=
  if s.escapeNext then
    { s with current := s.current ++ [c], escapeNext := false }
  else if c = '\\' then
    { s with current := s.current ++ [c], escapeNext := true }
  else if c = '"' then
    { s with current := s.current ++ [c], inString := !s.inString }
  else if ¬s.inString ∧ (c = '[' ∨ c = '{' ∨ c = '(') then
    { s with current := s.current ++ [c], bracket := s.bracket + 1 }
  else if ¬s.inString ∧ (c = ']' ∨ c = '}' ∨ c = ')') then
    { s with current := s.current ++ [c], bracket := s.bracket - 1 }
  else if ¬s.inString ∧ c = ',' ∧ s.bracket = 0 then
    { s with params := s.params ++ [stripChars s.current], current := [] }
  else
    { s with current := s.current ++ [c] }

/-- The whole splitting loop plus the trailing
`if current_param.strip(): params.append(current_param.strip())`
(play.py lines 353–382). -/
def scanParams (l : List Char) : List (List Char) :=
  let st := l.foldl scanStep scanInit
  if stripChars st.current = [] then st.params
  else st.params ++ [stripChars st.current]

/-- State machine equivalent to `re.findall(r'"([^"]+)"', s)`
(play.py line 394): `acc = none` means outside a candidate match,
`acc = some cs` means inside one with reversed content `cs`.  An empty
candidate (`""`) is not a match; the closing quote then re-opens, exactly
as the regex engine's advance-by-one retry lands on it. -/
def faAux : List Char → Option (List Char) → List String
  | [], _ => []
  | c :: rest, none =>
    if c = '"' then faAux rest (some []) else faAux rest none
  | c :: rest, some acc =>
    if c = '"' then
      if acc = [] then faAux rest (some [])
      else acc.reverse.asString :: faAux rest none
    else faAux rest (some (c :: acc))

/-- Model of `re.findall(r'"([^"]+)"', s)`. -/
def findallQuoted (l : List Char) : List String :=
  faAux l none

/-- No two consecutive underscores. -/
def noConsecUS : List Char → Bool
  | [] => true
  | [_] => true
  | a :: b :: rest => ¬(a = '_' ∧ b = '_') && noConsecUS (b :: rest)

/-- A digit run as accepted inside Python numeric literals: nonempty,
digits and underscores only, beginning and ending with a digit, no two
consecutive underscores (so every underscore sits between digits). -/
def digitRunOk (l : List Char) : Bool :=
  ¬(l = []) && l.all (fun c => c.isDigit || c = '_') &&
    (match l.head? with | some c => c.isDigit | none => false) &&
    (match l.getLast? with | some c => c.isDigit | none => false) &&
    noConsecUS l

def digitsOnly (l : List Char) : List Char :=
  l.filter (fun c => ¬(c = '_'))

def natOfDigits (l : List Char) : Nat :=
  l.foldl (fun n c => 10 * n + (c.toNat - '0'.toNat)) 0

/-- Optional leading sign of a numeric literal: the remaining text and
whether the value is negated. -/
def splitSign (l : List Char) : Bool × List Char :=
  match l with
  | c :: r => if c = '+' then (false, r) else if c = '-' then (true, r) else (false, l)
  | [] => (false, [])

/-- Model of `int(s)` on an already-stripped string: optional sign then a digit
run.  (The call site strips its argument first, so the surrounding
whitespace `int` would also accept never occurs.) -/
def pyInt? (l : List Char) : Option Int :=
  let neg := (splitSign l).1
  let body := (splitSign l).2
  if digitRunOk body then
    let n : Int := natOfDigits (digitsOnly body)
    some (if neg then -n else n)
  else none

def isDigitUS (c : Char) : Bool :=
  c.isDigit || c = '_'

/-- Value of a decimal mantissa `ip . fp` as an exact rational. -/
def mantissaVal (ip fp : List Char) : ℚ :=
  (natOfDigits (digitsOnly ip ++ digitsOnly fp) : ℚ) / 10 ^ (digitsOnly fp).length

/-- Exponent suffix of a float literal: optional sign then a digit run. -/
def parseExp (m : ℚ) (l : List Char) : Option ℚ :=
  let eneg := (splitSign l).1
  let body := (splitSign l).2
  if digitRunOk body then
    let e : Int := natOfDigits (digitsOnly body)
    some (m * 10 ^ (if eneg then -e else e))
  else none

/-- Model of `float(s)` on an already-stripped string, as the exact rational the
literal denotes: optional sign, then `digits [. digits] | . digits`, then
an optional exponent.  The `inf`/`nan` spellings contain no `.` and the
sole call site only reaches `float` on strings containing `.`, so they
are out of scope. -/
def pyFloat? (l : List Char) : Option ℚ :=
  let neg := (splitSign l).1
  let body := (splitSign l).2
  let sgn : ℚ := if neg then -1 else 1
  let ipRaw := body.takeWhile isDigitUS
  let rest1 := body.dropWhile isDigitUS
  if ipRaw = [] ∨ digitRunOk ipRaw = true then
    if rest1 = [] then
      if digitRunOk ipRaw then some (sgn * (natOfDigits (digitsOnly ipRaw) : ℚ))
      else none
    else if rest1.head? = some '.' then
      let rest2 := rest1.tail
      let fpRaw := rest2.takeWhile isDigitUS
      let rest3 := rest2.dropWhile isDigitUS
      if (fpRaw = [] ∨ digitRunOk fpRaw = true) ∧ ¬(ipRaw = [] ∧ fpRaw = []) then
        let m := sgn * mantissaVal ipRaw fpRaw
        if rest3 = [] then some m
        else if rest3.head? = some 'e' ∨ rest3.head? = some 'E' then parseExp m rest3.tail
        else none
      else none
    else if rest1.head? = some 'e' ∨ rest1.head? = some 'E' then
      if digitRunOk ipRaw then parseExp (sgn * (natOfDigits (digitsOnly ipRaw) : ℚ)) rest1.tail
      else none
    else none
  else none

/-- A positional value recovered by the extractor: one of a quoted string
(surrounding quotes removed), a bracketed array of quoted strings, an
integer, a float (as the exact rational the literal denotes), or a bare
segment passed through verbatim. -/
inductive Value where
  | str (s : String)
  | arr (xs : List String)
  | intVal (n : Int)
  | floatVal (q : ℚ)
  | ident (s : String)
deriving DecidableEq, Repr

instance : Inhabited Value := ⟨.ident ""⟩

/-- Per-segment cleaning (play.py lines 385–405): strip; a quoted segment
loses its surrounding quotes (`param[1:-1]`); a bracketed segment is
re-scanned with `re.findall(r'"([^"]+)"', ...)`; otherwise `float` is
tried when the segment contains `.`, else `int`, and on `ValueError` the
segment passes through verbatim. -/
def cleanParamCore (p : List Char) : Value :=
  if p.head? = some '"' ∧ p.getLast? = some '"' then
    .str ((p.drop 1).dropLast).asString
  else if p.head? = some '[' ∧ p.getLast? = some ']' then
    .arr (findallQuoted ((p.drop 1).dropLast))
  else if '.' ∈ p then
    match pyFloat? p with
    | some q => .floatVal q
    | none => .ident p.asString
  else
    match pyInt? p with
    | some n => .intVal n
    | none => .ident p.asString

def cleanParam (p0 : List Char) : Value :=
  cleanParamCore (stripChars p0)

/-- The full value pipeline of `parse_game_page` on the captured argument
blob: the two `re.sub` clean-ups, the splitting scan, then per-segment
cleaning (play.py lines 343–405). -/
def cleanedValues (blob : List Char) : List Value :=
  (scanParams (sub2 (sub1 blob))).map cleanParam

/-- The `game_info` record built at play.py lines 408–418. -/
structure GameInfo where
  game_id : Value
  moves : Value
  starting_position : Value
  winner : Value
  variant : Value
  game_status_text : Value
  player_name : Value
  role : Value
  turn : Value
deriving DecidableEq, Repr

/-- Positional mapping (play.py lines 407–422): a record is produced
exactly when at least 13 values were recovered, from positions
0,1,2,3,4,5,6,11,12.  (`getD` equals plain indexing here: every index
used is below 13 ≤ length.) -/
def mapToGame (vs : List Value) : Option GameInfo :=
  if 13 ≤ vs.length then
    some { game_id := vs.getD 0 default
           moves := vs.getD 1 default
           starting_position := vs.getD 2 default
           winner := vs.getD 3 default
           variant := vs.getD 4 default
           game_status_text := vs.getD 5 default
           player_name := vs.getD 6 default
           role := vs.getD 11 default
           turn := vs.getD 12 default }
  else none

/-- Model of `parse_game_page` from the captured argument blob onward. -/
def parseGameArgs (blob : List Char) : Option GameInfo :=
  mapToGame (cleanedValues blob)

/-! ## Engine channel (`ProcessHandler`) -/

/-- Observable channel state: `started` is `process is not None` (a
`Popen` handle, once created, is never cleared), `alive` is the
`is_alive` flag. -/
structure PState where
  started : Bool
  alive : Bool
deriving DecidableEq, Repr

/-- What the operating system reported to one `recv` call within the
timeout window: a full line became ready (`ready line`, with `line = ""`
encoding end-of-stream, as `readline` returns `""` exactly when the
stream has closed), nothing became ready before the deadline
(`timedOut`), or the read itself failed with an I/O error (`ioErr`). -/
inductive RecvEvent where
  | ready (line : String)
  | timedOut
  | ioErr
deriving DecidableEq, Repr

inductive RecvErr where
  | notStarted   -- RuntimeError("Le processus n'est pas démarré")
  | peerClosed   -- RuntimeError("Le processus s'est fermé")
  | timeout      -- TimeoutError
  | ioError      -- OSError from the read (POSIX branch)
  | readWrapped  -- RuntimeError("Erreur de lecture : ...") (win32 branch)
deriving DecidableEq, Repr

/-- Model of the POSIX (`select`) branch of `ProcessHandler.recv`
(play.py lines 78–137).  The guard raises when
the handler is not alive or has no process.  A ready nonempty line is
returned `strip`ped; a ready empty line means the peer closed
(`RuntimeError`, not an `OSError`, so `is_alive` is untouched); a timeout
raises `TimeoutError`, which in Python 3 is a subclass of `OSError`, so
the handler's `isinstance(e, (BrokenPipeError, OSError))` test clears
`is_alive`; a read error is an `OSError` and also clears it. -/
def recv (st : PState) (ev : RecvEvent) : Except RecvErr String × PState :=
  if ¬st.alive ∨ ¬st.started then (.error .notStarted, st)
  else
    match ev with
    | .ready line =>
      if line = "" then (.error .peerClosed, st)
      else (.ok (pyStrip line), st)
    | .timedOut => (.error .timeout, { st with alive := false })
    | .ioErr => (.error .ioError, { st with alive := false })

/-- Model of the win32 branch of `ProcessHandler.recv` (play.py lines
87–118): the helper thread catches every read exception and forwards only
its message, which `recv` re-raises as a `RuntimeError` (line 116) — not
an `OSError` — so the outer handler leaves `is_alive` unchanged on a read
failure.  Timeout (`queue.Empty` → `TimeoutError`) and peer close behave
as on the POSIX branch. -/
def recvWin (st : PState) (ev : RecvEvent) : Except RecvErr String × PState :=
  if ¬st.alive ∨ ¬st.started then (.error .notStarted, st)
  else
    match ev with
    | .ready line =>
      if line = "" then (.error .peerClosed, st)
      else (.ok (pyStrip line), st)
    | .timedOut => (.error .timeout, { st with alive := false })
    | .ioErr => (.error .readWrapped, st)

inductive SendErr where
  | notStarted
  | ioError
deriving DecidableEq, Repr

/-- The data actually written by `ProcessHandler.send` (play.py lines
66–70): the argument verbatim, with one `\n` appended exactly when it
does not already end with one. -/
def sendPayload (data : String) : String :=
  if data.data.getLast? = some '\n' then data else data ++ "\n"

/-- Model of `ProcessHandler.send` (play.py lines 60–76).  `ok = false` models a
`BrokenPipeError`/`OSError` from the write, which clears `is_alive` and
re-raises. -/
def send (st : PState) (data : String) (ok : Bool) :
    Except SendErr String × PState :=
  if ¬st.alive ∨ ¬st.started then (.error .notStarted, st)
  else if ok then (.ok (sendPayload data), st)
  else (.error .ioError, { st with alive := false })

/-- Model of `ProcessHandler.check_alive` (play.py lines 152–160): with a process,
`poll()` reporting an exit code (`exited = true`) clears `is_alive`;
without one the state is untouched and `False` is returned. -/
def checkAlive (st : PState) (exited : Bool) : Bool × PState :=
  if st.started then
    if exited then (false, { st with alive := false })
    else (true, st)
  else (false, st)

/-- Model of `ProcessHandler.kill` (play.py lines 162–173): with a process, the
`finally` block always clears `is_alive`; without one, nothing happens. -/
def kill (st : PState) : PState :=
  if st.started then { st with alive := false } else st

/-- Model of `ProcessHandler.start` (play.py lines 40–58): on a successful spawn
the process handle is set and `is_alive` becomes true; on a spawn failure
`is_alive` becomes false and the old handle (if any) is kept. -/
def start (st : PState) (spawnOk : Bool) : Bool × PState :=
  if spawnOk then (true, { started := true, alive := true })
  else (false, { st with alive := false })

/-- Model of `ProcessHandler.restart` (play.py lines 175–180): `kill` then
`start`. -/
def restart (st : PState) (spawnOk : Bool) : Bool × PState :=
  start (kill st) spawnOk

/-! ## `EothelloBot.get_ai_move` and `process_game` -/

/-- Move validation inside `get_ai_move` (play.py lines 258–266): an
empty response is "no move"; otherwise every occurrence of the prompt
decoration `"Board > "` is removed (`str.replace` replaces all
occurrences) and the result is accepted exactly when it has length 2. -/
def startsWithSeg : List Char → List Char → Bool
  | [], _ => true
  | _ :: _, [] => false
  | p :: ps, c :: cs => p = c && startsWithSeg ps cs

/-- Fuel-bounded scanner for `str.replace(pat, '')`.  The fuel starts at
the input length and each step consumes one unit while the input shrinks
by at least one character, so it never runs out. -/
def removeAllFuel (pat : List Char) : Nat → List Char → List Char
  | 0, _ => []
  | _, [] => []
  | fuel + 1, c :: rest =>
    if ¬(pat = []) ∧ startsWithSeg pat (c :: rest) then
      removeAllFuel pat fuel (List.drop pat.length (c :: rest))
    else c :: removeAllFuel pat fuel rest

/-- Model of `s.replace(pat, '')` for a nonempty pattern: removes every
non-overlapping occurrence, scanning left to right. -/
def removeAll (pat : List Char) (l : List Char) : List Char :=
  removeAllFuel pat l.length l

def promptChars : List Char := "Board > ".data

/-- The response-validation tail of `get_ai_move`. -/
def validateMove (resp : String) : Option String :=
  if resp = "" then none
  else
    let m := (removeAll promptChars resp.data).asString
    if m.length = 2 then some m else none

/-- The oracles consumed by one `get_ai_move` call: whether `poll()`
reports an exit, whether each (potential) restart's spawn succeeds,
whether the write succeeds, and what the bounded wait observed. -/
structure Oracles where
  procExited : Bool
  restart1Ok : Bool
  sendOk : Bool
  recvEv : RecvEvent
  restart2Ok : Bool
deriving DecidableEq, Repr

/-- The `interactive` round-trip plus exception handling inside
`get_ai_move` (play.py lines 256–283): `send` then `recv`; any raised
error is caught (`except TimeoutError` / `except Exception`), a restart
is attempted with its own failure swallowed, and `None` is returned.  The
third component counts how many times `interactive` ran. -/
def interactStep (st : PState) (position : String) (o : Oracles) :
    Option String × PState × Nat :=
  let s := send st position o.sendOk
  match s.1 with
  | .error _ =>
    let r := restart s.2 o.restart2Ok
    (none, r.2, 1)
  | .ok _ =>
    let rc := recv s.2 o.recvEv
    match rc.1 with
    | .error _ =>
      let r := restart rc.2 o.restart2Ok
      (none, r.2, 1)
    | .ok resp => (validateMove resp, rc.2, 1)

/-- Model of `EothelloBot.get_ai_move` (play.py lines 238–283): guard on the
handler's `is_alive`; a detected process exit triggers a proactive
restart, whose failure returns `None` without querying; then exactly one
`interactive` round-trip, every failure of which yields `None`. -/
def getAiMove (st : PState) (position : String) (o : Oracles) :
    Option String × PState × Nat :=
  if ¬st.alive then (none, st, 0)
  else
    let ca := checkAlive st o.procExited
    if ca.1 then interactStep ca.2 position o
    else
      let r := restart ca.2 o.restart1Ok
      if r.1 then interactStep r.2 position o
      else (none, r.2, 0)

/-- Python `==` against the integer `1` (play.py line 463,
`game_info['role'] == 1`): true for `int 1` and `float 1.0`, false for
every string, list or other number. -/
def pyEqOne : Value → Bool
  | .intVal n => n = 1
  | .floatVal q => q = 1
  | _ => false

/-- Python `==` between an extracted value and a string literal
(play.py line 473, `game_info['turn'] == our_color`): only equal strings
compare true. -/
def pyEqStr (v : Value) (s : String) : Bool :=
  match v with
  | .str t => t = s
  | .ident t => t = s
  | _ => false

/-- Model of `our_color` (play.py line 463). -/
def ourColor (gi : GameInfo) : String :=
  if pyEqOne gi.role then "black" else "white"

/-- Outcome of one `process_game` pass over a parsed record. -/
inductive GameAction where
  | submit (move : String) (idx : Nat)
  | engineNoMove
  | waitOpponent
  | fault
deriving DecidableEq, Repr

/-- The per-record core of `EothelloBot.process_game` (play.py lines
462–490): compute `our_color` from `role`; when `turn` equals it, join
the move history into the position, ask the engine, and on a move submit
it with index `len(moves) + 1`; otherwise wait.  A `moves` field that is
not a list makes `"".join` raise, caught by the surrounding handler
(line 492). -/
def processGame (gi : GameInfo) (engine : String → Option String) :
    GameAction :=
  if pyEqStr gi.turn (ourColor gi) then
    match gi.moves with
    | .arr ms =>
      let position := String.join ms
      match engine position with
      | some mv => .submit mv (ms.length + 1)
      | none => .engineNoMove
    | _ => .fault
  else .waitOpponent

/-! ## Well-formed argument blobs

For the round-trip property the spec quantifies over "well-formed"
argument blobs.  We build them from abstract tokens, following §3/§4.1 of
the spec: quoted strings (whose content may use backslash escapes),
bracketed arrays of quoted strings, bare integer and decimal literals,
and bare identifiers.  The side conditions keep each token inside the
fragment the page grammar actually uses: no stray `"`/`\` that would
derail the quote scanner, no `:` (which the `re.sub` key-quoting pass
would rewrite), no `]` outside its role as array closer (which the
trailing-comma pass inspects), and nonempty array elements (the
move-array regex `"([^"]+)"` requires nonempty content). -/

/-- One character of quoted-string content: either a plain character or a
backslash escape (kept verbatim by the extractor). -/
inductive Atom where
  | chr (c : Char)
  | esc (c : Char)
deriving DecidableEq, Repr

def Atom.render : Atom → List Char
  | .chr c => [c]
  | .esc c => ['\\', c]

def AtomOk : Atom → Prop
  | .chr c => c ≠ '"' ∧ c ≠ '\\' ∧ c ≠ ':' ∧ c ≠ ']'
  | .esc c => c ≠ ':' ∧ c ≠ ']'

def elemOk (e : List Char) : Prop :=
  e ≠ [] ∧ ∀ c ∈ e, c ≠ '"' ∧ c ≠ '\\' ∧ c ≠ ':' ∧ c ≠ ']'

/-- A top-level positional token of the argument blob. -/
inductive Tok where
  | str (atoms : List Atom)
  | arr (elems : List (List Char))
  | intLit (neg : Bool) (ds : List Char)
  | floatLit (neg : Bool) (ip fp : List Char)
  | ident (s : List Char)
deriving DecidableEq, Repr

/-- The comma-separated quoted elements inside a bracketed array. -/
def renderElems : List (List Char) → List Char
  | [] => []
  | [e] => '"' :: e ++ ['"']
  | e :: rest => ('"' :: e ++ ['"']) ++ ',' :: renderElems rest

/-- The literal text of one token as it appears in the blob. -/
def Tok.render : Tok → List Char
  | .str as => '"' :: (as.map Atom.render).flatten ++ ['"']
  | .arr es => '[' :: renderElems es ++ [']']
  | .intLit neg ds => (if neg then ['-'] else []) ++ ds
  | .floatLit neg ip fp => (if neg then ['-'] else []) ++ ip ++ '.' :: fp
  | .ident s => s

/-- The value the literal denotes — what a correct extraction must
recover. -/
def Tok.val : Tok → Value
  | .str as => .str ((as.map Atom.render).flatten).asString
  | .arr es => .arr (es.map List.asString)
  | .intLit neg ds =>
    .intVal (if neg then -(natOfDigits ds : Int) else (natOfDigits ds : Int))
  | .floatLit neg ip fp =>
    .floatVal ((if neg then -1 else 1) * mantissaVal ip fp)
  | .ident s => .ident s.asString

def TokOk : Tok → Prop
  | .str as => ∀ a ∈ as, AtomOk a
  | .arr es => ∀ e ∈ es, elemOk e
  | .intLit _ ds => ds ≠ [] ∧ ∀ c ∈ ds, c.isDigit
  | .floatLit _ ip fp =>
    ¬(ip = [] ∧ fp = []) ∧ (∀ c ∈ ip, c.isDigit) ∧ ∀ c ∈ fp, c.isDigit
  | .ident s => s ≠ [] ∧ ∀ c ∈ s, c.isAlpha ∨ c = '_'

/-- A well-formed argument blob: the top-level tokens joined by commas,
as captured from `server_game.initializeServerGame( ... )`. -/
def renderArgs : List Tok → List Char
  | [] => []
  | [t] => t.render
  | t :: rest => t.render ++ ',' :: renderArgs rest

/-- The adjacency condition under which the trailing-comma pass cannot
fire: no `]` directly after a comma or a whitespace character. -/
def sub2Safe (x y : Char) : Prop :=
  ¬(y = ']' ∧ (x = ',' ∨ pyIsSpace x = true))

/-- A scanner state between top-level segments: depth 0, outside any
quoted run, no pending escape. -/
def midState (ps : List (List Char)) (cur : List Char) : ScanState :=
  ⟨ps, cur, 0, false, false⟩

/-- A character with no special role for the scanner outside strings. -/
def plainChar (c : Char) : Prop :=
  c ≠ '\\' ∧ c ≠ '"' ∧ ¬(c = '[' ∨ c = '{' ∨ c = '(') ∧
    ¬(c = ']' ∨ c = '}' ∨ c = ')') ∧ c ≠ ','

instance : DecidablePred AtomOk := fun a => by
  cases a <;> (dsimp [AtomOk]; infer_instance)

instance : DecidablePred elemOk := fun e => by
  dsimp [elemOk]; infer_instance

instance : DecidablePred TokOk := fun t => by
  cases t <;> (dsimp [TokOk]; infer_instance)

/-- The argument tokens of the spec's worked scenario
`initializeServerGame(101,["f5","d6"],"start",0,1,"ongoing","Alice",0,0,0,0,1,"black")`. -/
def wToks : List Tok :=
  [.intLit false ['1', '0', '1'],
   .arr [['f', '5'], ['d', '6']],
   .str ("start".data.map Atom.chr),
   .intLit false ['0'],
   .intLit false ['1'],
   .str ("ongoing".data.map Atom.chr),
   .str ("Alice".data.map Atom.chr),
   .intLit false ['0'],
   .intLit false ['0'],
   .intLit false ['0'],
   .intLit false ['0'],
   .intLit false ['1'],
   .str ("black".data.map Atom.chr)]

/-- Number of newline characters in a string. -/
def countNewlines (s : String) : Nat :=
  s.data.count '\n'

/-- The argument blob of the spec's worked scenario. -/
def c6Blob : List Char :=
  "101,[\"f5\",\"d6\"],\"start\",0,1,\"ongoing\",\"Alice\",0,0,0,0,1,\"black\"".data

/-- The record the scenario blob parses to. -/
def c6Record : GameInfo :=
  ⟨.intVal 101, .arr ["f5", "d6"], .str "start", .intVal 0, .intVal 1,
   .str "ongoing", .str "Alice", .intVal 1, .str "black"⟩

/-! ## Helper lemmas: character classes and stripping -/

lemma isDigit_not_space {c : Char} (h : c.isDigit = true) : pyIsSpace c = false := by
  cases hc : pyIsSpace c
  · rfl
  · exfalso
    have hm : c ∈ pySpaceChars := by simpa [pyIsSpace] using hc
    fin_cases hm <;> exact absurd h (by decide)

lemma isAlphaUS_not_space {c : Char} (h : c.isAlpha = true ∨ c = '_') :
    pyIsSpace c = false := by
  rcases h with h | h
  · cases hc : pyIsSpace c
    · rfl
    · exfalso
      have hm : c ∈ pySpaceChars := by simpa [pyIsSpace] using hc
      fin_cases hm <;> exact absurd h (by decide)
  · subst h; decide

lemma isDigit_ne {c : Char} (h : c.isDigit = true) (d : Char)
    (hd : d.isDigit = false) : c ≠ d := by
  intro e; subst e; rw [h] at hd; exact absurd hd (by simp)

lemma isAlpha_not_digit {c : Char} (h : c.isAlpha = true) : c.isDigit = false := by
  unfold Char.isAlpha Char.isUpper Char.isLower Char.isDigit at *
  simp only [ge_iff_le, Bool.or_eq_true, Bool.and_eq_true, decide_eq_true_eq,
    UInt32.le_def, BitVec.le_def] at h
  simp only [Bool.eq_false_iff, ne_eq, Bool.and_eq_true, decide_eq_true_eq, not_and,
    UInt32.le_def, BitVec.le_def]
  intro h1 h2
  have e48 : ((48 : UInt32)).toBitVec.toNat = 48 := rfl
  have e57 : ((57 : UInt32)).toBitVec.toNat = 57 := rfl
  have e65 : ((65 : UInt32)).toBitVec.toNat = 65 := rfl
  have e90 : ((90 : UInt32)).toBitVec.toNat = 90 := rfl
  have e97 : ((97 : UInt32)).toBitVec.toNat = 97 := rfl
  have e122 : ((122 : UInt32)).toBitVec.toNat = 122 := rfl
  rcases h with ⟨a1, a2⟩ | ⟨a1, a2⟩ <;> omega

lemma isAlphaUS_ne {c : Char} (h : c.isAlpha = true ∨ c = '_') (d : Char)
    (hd : d.isAlpha = false) (hd2 : d ≠ '_') : c ≠ d := by
  rcases h with h | h
  · intro e; subst e; rw [h] at hd; exact absurd hd (by simp)
  · subst h; exact fun e => hd2 e.symm

lemma dropWhile_head_false {p : Char → Bool} {l : List Char}
    (h : ∀ c ∈ l.head?, p c = false) : l.dropWhile p = l := by
  cases l with
  | nil => rfl
  | cons a t =>
    have ha : p a = false := h a (by simp)
    simp [List.dropWhile_cons, ha]

lemma stripChars_eq_self {l : List Char}
    (h1 : ∀ c ∈ l.head?, pyIsSpace c = false)
    (h2 : ∀ c ∈ l.getLast?, pyIsSpace c = false) : stripChars l = l := by
  unfold stripChars
  rw [dropWhile_head_false h1,
    dropWhile_head_false (by simpa [List.head?_reverse] using h2),
    List.reverse_reverse]

lemma takeWhile_all_append {p : Char → Bool} {l₁ l₂ : List Char}
    (h : ∀ c ∈ l₁, p c = true) :
    (l₁ ++ l₂).takeWhile p = l₁ ++ l₂.takeWhile p := by
  induction l₁ with
  | nil => simp
  | cons a t ih =>
    simp only [List.cons_append, List.takeWhile_cons, h a (by simp)]
    simp [ih (fun c hc => h c (by simp [hc]))]

lemma dropWhile_all_append {p : Char → Bool} {l₁ l₂ : List Char}
    (h : ∀ c ∈ l₁, p c = true) :
    (l₁ ++ l₂).dropWhile p = l₂.dropWhile p := by
  induction l₁ with
  | nil => simp
  | cons a t ih =>
    simp only [List.cons_append, List.dropWhile_cons, h a (by simp), if_true]
    exact ih (fun c hc => h c (by simp [hc]))

lemma takeWhile_all {p : Char → Bool} {l : List Char}
    (h : ∀ c ∈ l, p c = true) : l.takeWhile p = l := by
  have := @takeWhile_all_append p l [] h
  simpa using this

lemma dropWhile_all {p : Char → Bool} {l : List Char}
    (h : ∀ c ∈ l, p c = true) : l.dropWhile p = [] := by
  have := @dropWhile_all_append p l [] h
  simpa using this

/-! ## The two `re.sub` passes are the identity on well-formed blobs -/

lemma sub1Aux_no_colon {l : List Char} (h : ':' ∉ l) :
    ∀ p, sub1Aux l p = p ++ l := by
  induction l with
  | nil => intro p; simp [sub1Aux]
  | cons c rest ih =>
    intro p
    have hc : c ≠ ':' := fun e => h (e ▸ List.mem_cons_self c rest)
    have hr : ':' ∉ rest := fun m => h (List.mem_cons_of_mem _ m)
    by_cases hw : isWordChar c
    · simp [sub1Aux, hw, ih hr]
    · simp [sub1Aux, hw, hc, ih hr]

/-- The pass `re.sub(r'(\w+):', ...)` leaves a colon-free blob unchanged. -/
lemma sub1_no_colon {l : List Char} (h : ':' ∉ l) : sub1 l = l := by
  simpa [sub1] using sub1Aux_no_colon h []

lemma sub2Safe_of_ne {x y : Char} (h : y ≠ ']') : sub2Safe x y :=
  fun hy => h hy.1

lemma chain'_sub2Safe_of_no_rb {l : List Char} (h : ']' ∉ l) :
    List.Chain' sub2Safe l := by
  induction l with
  | nil => exact List.chain'_nil
  | cons a t ih =>
    cases t with
    | nil => simp
    | cons b t2 =>
      refine List.chain'_cons.mpr ⟨sub2Safe_of_ne ?_, ih (fun m => h (List.mem_cons_of_mem _ m))⟩
      intro e
      exact h (e ▸ List.mem_cons_of_mem _ (List.mem_cons_self b t2))

lemma sub2Aux_id : ∀ (l p : List Char),
    (p = [] ∨ ∃ x, p.getLast? = some x ∧ (x = ',' ∨ pyIsSpace x = true)) →
    List.Chain' sub2Safe (p ++ l) →
    sub2Aux l p = p ++ l := by
  intro l
  induction l with
  | nil => intro p _ _; simp [sub2Aux]
  | cons c rest ih =>
    intro p hshape hch
    by_cases hp : p = []
    · subst hp
      simp only [List.nil_append] at hch ⊢
      by_cases hc : c = ','
      · subst hc
        have step : sub2Aux (',' :: rest) [] = sub2Aux rest [','] := by
          simp [sub2Aux]
        rw [step, ih [','] (Or.inr ⟨',', rfl, Or.inl rfl⟩) (by simpa using hch)]
        simp
      · have step : sub2Aux (c :: rest) [] = c :: sub2Aux rest [] := by
          simp [sub2Aux, hc]
        rw [step, ih [] (Or.inl rfl) hch.tail]
        simp
    · obtain ⟨x, hx, hxp⟩ := hshape.resolve_left hp
      by_cases hs : pyIsSpace c
      · have step : sub2Aux (c :: rest) p = sub2Aux rest (p ++ [c]) := by
          simp [sub2Aux, hp, hs]
        rw [step, ih (p ++ [c]) (Or.inr ⟨c, List.getLast?_concat p, Or.inr hs⟩)
          (by simpa using hch)]
        simp
      · by_cases hb : c = ']'
        · exfalso
          subst hb
          rcases List.chain'_append.mp hch with ⟨_, _, hbd⟩
          exact hbd x (Option.mem_def.mpr hx) ']' (by simp) ⟨rfl, hxp⟩
        · by_cases hc : c = ','
          · subst hc
            have step : sub2Aux (',' :: rest) p = p ++ sub2Aux rest [','] := by
              simp [sub2Aux, hp, hs]
            rw [step, ih [','] (Or.inr ⟨',', rfl, Or.inl rfl⟩)
              (List.chain'_append.mp hch).2.1]
            simp
          · have step : sub2Aux (c :: rest) p = p ++ c :: sub2Aux rest [] := by
              simp [sub2Aux, hp, hs, hb, hc]
            rw [step, ih [] (Or.inl rfl) (List.chain'_append.mp hch).2.1.tail]
            simp

/-- The pass `re.sub(r',\s*]', ']')` leaves a blob unchanged when no `]` directly
follows a comma or whitespace. -/
lemma sub2_chain (l : List Char) (h : List.Chain' sub2Safe l) : sub2 l = l := by
  simpa [sub2] using sub2Aux_id l [] (Or.inl rfl) (by simpa using h)

/-! ## Scanner lemmas -/

lemma scanStep_esc {ps cur b ins} {c : Char} :
    scanStep ⟨ps, cur, b, ins, true⟩ c = ⟨ps, cur ++ [c], b, ins, false⟩ := by
  simp [scanStep]

lemma scanStep_backslash {ps cur b ins} :
    scanStep ⟨ps, cur, b, ins, false⟩ '\\' = ⟨ps, cur ++ ['\\'], b, ins, true⟩ := by
  simp [scanStep]

lemma scanStep_quote {ps cur b ins} :
    scanStep ⟨ps, cur, b, ins, false⟩ '"' = ⟨ps, cur ++ ['"'], b, !ins, false⟩ := by
  simp [scanStep]

lemma scanStep_inString {ps cur b} {c : Char} (h1 : c ≠ '"') (h2 : c ≠ '\\') :
    scanStep ⟨ps, cur, b, true, false⟩ c = ⟨ps, cur ++ [c], b, true, false⟩ := by
  simp [scanStep, h1, h2]

lemma scanStep_open {ps cur b} {c : Char} (h : c = '[' ∨ c = '{' ∨ c = '(') :
    scanStep ⟨ps, cur, b, false, false⟩ c = ⟨ps, cur ++ [c], b + 1, false, false⟩ := by
  have h2 : c ≠ '\\' := by rcases h with rfl | rfl | rfl <;> decide
  have h3 : c ≠ '"' := by rcases h with rfl | rfl | rfl <;> decide
  simp [scanStep, h2, h3, h]

lemma scanStep_close {ps cur b} {c : Char} (h : c = ']' ∨ c = '}' ∨ c = ')') :
    scanStep ⟨ps, cur, b, false, false⟩ c = ⟨ps, cur ++ [c], b - 1, false, false⟩ := by
  have h2 : c ≠ '\\' := by rcases h with rfl | rfl | rfl <;> decide
  have h3 : c ≠ '"' := by rcases h with rfl | rfl | rfl <;> decide
  have h4 : ¬(c = '[' ∨ c = '{' ∨ c = '(') := by rcases h with rfl | rfl | rfl <;> decide
  simp [scanStep, h2, h3, h4, h]

lemma scanStep_comma0 {ps cur} :
    scanStep ⟨ps, cur, 0, false, false⟩ ',' =
      ⟨ps ++ [stripChars cur], [], 0, false, false⟩ := by
  simp [scanStep]

lemma scanStep_plain_out {ps cur} {b : Int} {c : Char}
    (h2 : c ≠ '\\') (h3 : c ≠ '"') (h4 : ¬(c = '[' ∨ c = '{' ∨ c = '('))
    (h5 : ¬(c = ']' ∨ c = '}' ∨ c = ')')) (h6 : ¬(c = ',' ∧ b = 0)) :
    scanStep ⟨ps, cur, b, false, false⟩ c = ⟨ps, cur ++ [c], b, false, false⟩ := by
  simp only [scanStep]
  simp [h2, h3, h4, h5]
  intro hc hb
  exact absurd ⟨hc, hb⟩ h6

/-- Quoted-string content is copied verbatim while `in_string` holds. -/
lemma foldl_atoms (as : List Atom) (h : ∀ a ∈ as, AtomOk a)
    (ps : List (List Char)) (b : Int) :
    ∀ cur, ((as.map Atom.render).flatten).foldl scanStep ⟨ps, cur, b, true, false⟩
      = ⟨ps, cur ++ (as.map Atom.render).flatten, b, true, false⟩ := by
  induction as with
  | nil => intro cur; simp
  | cons a t ih =>
    intro cur
    have ht : ∀ x ∈ t, AtomOk x := fun x hx => h x (List.mem_cons_of_mem _ hx)
    rcases a with c | c
    · obtain ⟨h1, h2, _, _⟩ := h (.chr c) (List.mem_cons_self _ _)
      simp only [List.map_cons, List.flatten_cons, Atom.render]
      rw [List.singleton_append, List.foldl_cons, scanStep_inString h1 h2, ih ht]
      simp
    · obtain ⟨_, _⟩ := h (.esc c) (List.mem_cons_self _ _)
      simp only [List.map_cons, List.flatten_cons, Atom.render]
      rw [List.cons_append, List.foldl_cons, scanStep_backslash,
        List.singleton_append, List.foldl_cons, scanStep_esc, ih ht]
      simp

/-- Array-element content is copied verbatim while `in_string` holds. -/
lemma foldl_elem_chars (e : List Char)
    (he : ∀ c ∈ e, c ≠ '"' ∧ c ≠ '\\' ∧ c ≠ ':' ∧ c ≠ ']')
    (ps : List (List Char)) (b : Int) :
    ∀ cur, e.foldl scanStep ⟨ps, cur, b, true, false⟩ = ⟨ps, cur ++ e, b, true, false⟩ := by
  induction e with
  | nil => intro cur; simp
  | cons c t ih =>
    intro cur
    obtain ⟨h1, h2, _, _⟩ := he c (List.mem_cons_self _ _)
    rw [List.foldl_cons, scanStep_inString h1 h2,
      ih (fun x hx => he x (List.mem_cons_of_mem _ hx))]
    simp

/-- One quoted array element is copied verbatim at depth 1. -/
lemma foldl_quotedElem (e : List Char)
    (he : ∀ c ∈ e, c ≠ '"' ∧ c ≠ '\\' ∧ c ≠ ':' ∧ c ≠ ']')
    (ps : List (List Char)) (cur : List Char) :
    ('"' :: (e ++ ['"'])).foldl scanStep ⟨ps, cur, 1, false, false⟩
      = ⟨ps, cur ++ ('"' :: (e ++ ['"'])), 1, false, false⟩ := by
  rw [List.foldl_cons, scanStep_quote]
  simp only [Bool.not_false]
  rw [List.foldl_append, foldl_elem_chars e he ps 1]
  simp only [List.foldl_cons, List.foldl_nil]
  rw [scanStep_quote]
  simp

/-- The rendered elements of an array are copied verbatim at depth 1. -/
lemma foldl_renderElems (es : List (List Char)) (h : ∀ e ∈ es, elemOk e)
    (ps : List (List Char)) :
    ∀ cur, (renderElems es).foldl scanStep ⟨ps, cur, 1, false, false⟩
      = ⟨ps, cur ++ renderElems es, 1, false, false⟩ := by
  induction es with
  | nil => intro cur; simp [renderElems]
  | cons e rest ih =>
    intro cur
    obtain ⟨-, he⟩ := h e (List.mem_cons_self _ _)
    have hrest : ∀ x ∈ rest, elemOk x := fun x hx => h x (List.mem_cons_of_mem _ hx)
    cases rest with
    | nil =>
      show (('"' :: (e ++ ['"'])).foldl scanStep _) = _
      rw [foldl_quotedElem e he ps cur]
      simp [renderElems]
    | cons e2 rest2 =>
      show ((('"' :: e ++ ['"']) ++ ',' :: renderElems (e2 :: rest2)).foldl scanStep _) = _
      rw [List.foldl_append, List.cons_append, foldl_quotedElem e he ps cur]
      rw [List.foldl_cons]
      rw [scanStep_plain_out (by decide) (by decide) (by decide) (by decide)
        (by simp), ih hrest]
      simp [renderElems]

lemma digit_plainChar {c : Char} (h : c.isDigit = true) : plainChar c := by
  refine ⟨isDigit_ne h _ (by decide), isDigit_ne h _ (by decide), ?_, ?_,
    isDigit_ne h _ (by decide)⟩ <;>
    · rintro (rfl | rfl | rfl) <;> exact absurd h (by decide)

lemma alphaUS_plainChar {c : Char} (h : c.isAlpha = true ∨ c = '_') : plainChar c := by
  refine ⟨isAlphaUS_ne h _ (by decide) (by decide),
    isAlphaUS_ne h _ (by decide) (by decide), ?_, ?_,
    isAlphaUS_ne h _ (by decide) (by decide)⟩ <;>
    · rintro (rfl | rfl | rfl) <;>
      · rcases h with h | h
        · exact absurd h (by decide)
        · exact absurd h (by decide)

lemma foldl_plain_out (l : List Char) (h : ∀ c ∈ l, plainChar c)
    (ps : List (List Char)) (b : Int) (hb : ¬b = 0 ∨ ¬ ',' ∈ l) :
    ∀ cur, l.foldl scanStep ⟨ps, cur, b, false, false⟩ = ⟨ps, cur ++ l, b, false, false⟩ := by
  induction l with
  | nil => intro cur; simp
  | cons c t ih =>
    intro cur
    obtain ⟨h2, h3, h4, h5, h6⟩ := h c (List.mem_cons_self _ _)
    rw [List.foldl_cons, scanStep_plain_out h2 h3 h4 h5 (fun hx => h6 hx.1),
      ih (fun x hx => h x (List.mem_cons_of_mem _ hx))
        (by rcases hb with hb | hb
            · exact Or.inl hb
            · exact Or.inr (fun hx => hb (List.mem_cons_of_mem _ hx)))]
    simp

lemma tok_render_plain (t : Tok) (h : TokOk t)
    (hnum : (∃ neg ds, t = .intLit neg ds) ∨ (∃ neg ip fp, t = .floatLit neg ip fp) ∨
      (∃ s, t = .ident s)) :
    ∀ c ∈ t.render, plainChar c := by
  rcases hnum with ⟨neg, ds, rfl⟩ | ⟨neg, ip, fp, rfl⟩ | ⟨s, rfl⟩
  · obtain ⟨-, hd⟩ := h
    intro c hc
    simp only [Tok.render, List.mem_append] at hc
    rcases hc with hc | hc
    · cases neg with
      | true => simp at hc; subst hc; exact ⟨by decide, by decide, by decide, by decide, by decide⟩
      | false => simp at hc
    · exact digit_plainChar (hd c hc)
  · obtain ⟨-, hip, hfp⟩ := h
    intro c hc
    simp only [Tok.render, List.mem_append] at hc
    rcases hc with (hc | hc) | hc
    · cases neg with
      | true => simp at hc; subst hc; exact ⟨by decide, by decide, by decide, by decide, by decide⟩
      | false => simp at hc
    · exact digit_plainChar (hip c hc)
    · rcases List.mem_cons.mp hc with rfl | hc
      · exact ⟨by decide, by decide, by decide, by decide, by decide⟩
      · exact digit_plainChar (hfp c hc)
  · obtain ⟨-, hs⟩ := h
    intro c hc
    exact alphaUS_plainChar (hs c hc)

/-- Processing one well-formed token from a between-segments state copies
its rendered text into the current segment. -/
lemma foldl_render (t : Tok) (h : TokOk t) (ps : List (List Char)) (cur : List Char) :
    (t.render).foldl scanStep (midState ps cur) = midState ps (cur ++ t.render) := by
  cases t with
  | str as =>
    show (('"' :: ((as.map Atom.render).flatten ++ ['"'])).foldl scanStep
      (⟨ps, cur, 0, false, false⟩ : ScanState)) = _
    rw [List.foldl_cons, scanStep_quote]
    simp only [Bool.not_false]
    rw [List.foldl_append, foldl_atoms as h ps 0]
    simp only [List.foldl_cons, List.foldl_nil]
    rw [scanStep_quote]
    simp [midState, Tok.render]
  | arr es =>
    show (('[' :: (renderElems es ++ [']'])).foldl scanStep
      (⟨ps, cur, 0, false, false⟩ : ScanState)) = _
    rw [List.foldl_cons, scanStep_open (Or.inl rfl)]
    simp only [zero_add]
    rw [List.foldl_append, foldl_renderElems es h ps]
    simp only [List.foldl_cons, List.foldl_nil]
    rw [scanStep_close (Or.inl rfl)]
    simp [midState, Tok.render]
  | intLit neg ds =>
    have hp := tok_render_plain _ h (Or.inl ⟨neg, ds, rfl⟩)
    have hnc : ¬ ',' ∈ (Tok.intLit neg ds).render := fun hm => (hp ',' hm).2.2.2.2 rfl
    rw [show midState ps cur = (⟨ps, cur, 0, false, false⟩ : ScanState) from rfl,
      foldl_plain_out _ hp ps 0 (Or.inr hnc)]
    rfl
  | floatLit neg ip fp =>
    have hp := tok_render_plain _ h (Or.inr (Or.inl ⟨neg, ip, fp, rfl⟩))
    have hnc : ¬ ',' ∈ (Tok.floatLit neg ip fp).render := fun hm => (hp ',' hm).2.2.2.2 rfl
    rw [show midState ps cur = (⟨ps, cur, 0, false, false⟩ : ScanState) from rfl,
      foldl_plain_out _ hp ps 0 (Or.inr hnc)]
    rfl
  | ident s =>
    have hp := tok_render_plain _ h (Or.inr (Or.inr ⟨s, rfl⟩))
    have hnc : ¬ ',' ∈ (Tok.ident s).render := fun hm => (hp ',' hm).2.2.2.2 rfl
    rw [show midState ps cur = (⟨ps, cur, 0, false, false⟩ : ScanState) from rfl,
      foldl_plain_out _ hp ps 0 (Or.inr hnc)]
    rfl

lemma strip_of_all {l : List Char} (h : ∀ c ∈ l, pyIsSpace c = false) :
    stripChars l = l :=
  stripChars_eq_self (fun c hc => h c (List.mem_of_mem_head? hc))
    (fun c hc => h c (List.mem_of_mem_getLast? hc))

lemma tok_render_nonspace (t : Tok) (h : TokOk t)
    (hnum : (∃ neg ds, t = .intLit neg ds) ∨ (∃ neg ip fp, t = .floatLit neg ip fp) ∨
      (∃ s, t = .ident s)) :
    ∀ c ∈ t.render, pyIsSpace c = false := by
  rcases hnum with ⟨neg, ds, rfl⟩ | ⟨neg, ip, fp, rfl⟩ | ⟨s, rfl⟩
  · obtain ⟨-, hd⟩ := h
    intro c hc
    simp only [Tok.render, List.mem_append] at hc
    rcases hc with hc | hc
    · cases neg with
      | true => simp at hc; subst hc; decide
      | false => simp at hc
    · exact isDigit_not_space (hd c hc)
  · obtain ⟨-, hip, hfp⟩ := h
    intro c hc
    simp only [Tok.render, List.mem_append] at hc
    rcases hc with (hc | hc) | hc
    · cases neg with
      | true => simp at hc; subst hc; decide
      | false => simp at hc
    · exact isDigit_not_space (hip c hc)
    · rcases List.mem_cons.mp hc with rfl | hc
      · decide
      · exact isDigit_not_space (hfp c hc)
  · obtain ⟨-, hs⟩ := h
    intro c hc
    exact isAlphaUS_not_space (hs c hc)

/-- A rendered token has no leading or trailing whitespace, so the
scanner's `strip` leaves it unchanged. -/
lemma strip_render (t : Tok) (h : TokOk t) : stripChars t.render = t.render := by
  cases t with
  | str as =>
    refine stripChars_eq_self ?_ ?_
    · intro c hc
      rw [Option.mem_def, show (Tok.str as).render.head? = some '"' from rfl] at hc
      obtain rfl : '"' = c := Option.some.inj hc
      decide
    · intro c hc
      rw [Option.mem_def, show (Tok.str as).render
        = ('"' :: (as.map Atom.render).flatten) ++ ['"'] from rfl,
        List.getLast?_concat] at hc
      obtain rfl : '"' = c := Option.some.inj hc
      decide
  | arr es =>
    refine stripChars_eq_self ?_ ?_
    · intro c hc
      rw [Option.mem_def, show (Tok.arr es).render.head? = some '[' from rfl] at hc
      obtain rfl : '[' = c := Option.some.inj hc
      decide
    · intro c hc
      rw [Option.mem_def, show (Tok.arr es).render
        = ('[' :: renderElems es) ++ [']'] from rfl,
        List.getLast?_concat] at hc
      obtain rfl : ']' = c := Option.some.inj hc
      decide
  | intLit neg ds => exact strip_of_all (tok_render_nonspace _ h (Or.inl ⟨neg, ds, rfl⟩))
  | floatLit neg ip fp =>
    exact strip_of_all (tok_render_nonspace _ h (Or.inr (Or.inl ⟨neg, ip, fp, rfl⟩)))
  | ident s => exact strip_of_all (tok_render_nonspace _ h (Or.inr (Or.inr ⟨s, rfl⟩)))

lemma render_ne_nil (t : Tok) (h : TokOk t) : t.render ≠ [] := by
  cases t with
  | str as => simp [Tok.render]
  | arr es => simp [Tok.render]
  | intLit neg ds =>
    obtain ⟨hne, -⟩ := h
    simp [Tok.render, hne]
  | floatLit neg ip fp => simp [Tok.render]
  | ident s => exact h.1

/-- The splitting scan over a well-formed rendered blob: every token but
the last has been emitted (already stripped, hence verbatim), and the
last is pending in `current`. -/
lemma foldl_renderArgs (toks : List Tok) (hne : toks ≠ []) (h : ∀ t ∈ toks, TokOk t) :
    ∀ ps, (renderArgs toks).foldl scanStep (midState ps []) =
      midState (ps ++ (toks.dropLast.map Tok.render)) (toks.getLast hne).render := by
  induction toks with
  | nil => exact absurd rfl hne
  | cons t rest ih =>
    intro ps
    cases rest with
    | nil =>
      show ((t.render).foldl scanStep (midState ps [])) = _
      rw [foldl_render t (h t (List.mem_cons_self _ _)) ps []]
      simp
    | cons t2 rest2 =>
      show ((t.render ++ ',' :: renderArgs (t2 :: rest2)).foldl scanStep (midState ps [])) = _
      rw [List.foldl_append, foldl_render t (h t (List.mem_cons_self _ _)) ps [],
        List.foldl_cons]
      rw [show midState ps ([] ++ t.render) = (⟨ps, t.render, 0, false, false⟩ : ScanState) by
        simp [midState]]
      rw [scanStep_comma0, strip_render t (h t (List.mem_cons_self _ _))]
      rw [show (⟨ps ++ [t.render], [], 0, false, false⟩ : ScanState)
        = midState (ps ++ [t.render]) [] from rfl]
      rw [ih (List.cons_ne_nil _ _) (fun x hx => h x (List.mem_cons_of_mem _ hx))
        (ps ++ [t.render])]
      congr 1
      simp [List.dropLast_cons₂]

/-- The splitting scan recovers exactly the rendered tokens, in order. -/
lemma scanParams_renderArgs (toks : List Tok) (hne : toks ≠ [])
    (h : ∀ t ∈ toks, TokOk t) :
    scanParams (renderArgs toks) = toks.map Tok.render := by
  unfold scanParams
  rw [show scanInit = midState [] [] from rfl, foldl_renderArgs toks hne h []]
  have hlast : toks.getLast hne ∈ toks := List.getLast_mem hne
  simp only [midState, List.nil_append]
  rw [strip_render _ (h _ hlast), if_neg (render_ne_nil _ (h _ hlast))]
  rw [show [(toks.getLast hne).render] = List.map Tok.render [toks.getLast hne] from rfl,
    ← List.map_append, List.dropLast_append_getLast hne]

lemma mem_renderElems {c : Char} {es : List (List Char)} (hc : c ∈ renderElems es) :
    c = '"' ∨ c = ',' ∨ ∃ e ∈ es, c ∈ e := by
  induction es with
  | nil => simp [renderElems] at hc
  | cons e rest ih =>
    cases rest with
    | nil =>
      rw [show renderElems [e] = ('"' :: e) ++ ['"'] from rfl] at hc
      rcases List.mem_append.mp hc with hc | hc
      · rcases List.mem_cons.mp hc with rfl | hc
        · exact Or.inl rfl
        · exact Or.inr (Or.inr ⟨e, List.mem_cons_self _ _, hc⟩)
      · rcases List.mem_cons.mp hc with rfl | hc
        · exact Or.inl rfl
        · simp at hc
    | cons e2 rest2 =>
      rw [show renderElems (e :: e2 :: rest2)
        = (('"' :: e) ++ ['"']) ++ ',' :: renderElems (e2 :: rest2) from rfl] at hc
      rcases List.mem_append.mp hc with hc | hc
      · rcases List.mem_append.mp hc with hc | hc
        · rcases List.mem_cons.mp hc with rfl | hc
          · exact Or.inl rfl
          · exact Or.inr (Or.inr ⟨e, List.mem_cons_self _ _, hc⟩)
        · rcases List.mem_cons.mp hc with rfl | hc
          · exact Or.inl rfl
          · simp at hc
      · rcases List.mem_cons.mp hc with rfl | hc
        · exact Or.inr (Or.inl rfl)
        · rcases ih hc with h1 | h1 | ⟨e3, he3, hce⟩
          · exact Or.inl h1
          · exact Or.inr (Or.inl h1)
          · exact Or.inr (Or.inr ⟨e3, List.mem_cons_of_mem _ he3, hce⟩)

/-- For a bare numeric or identifier token, any character that is not a
digit, letter, underscore, sign or dot does not occur in the render. -/
lemma notin_render_num (t : Tok) (h : TokOk t)
    (hnum : (∃ neg ds, t = .intLit neg ds) ∨ (∃ neg ip fp, t = .floatLit neg ip fp) ∨
      (∃ s, t = .ident s))
    (d : Char) (hd1 : d.isDigit = false) (hd2 : d.isAlpha = false)
    (hd3 : d ≠ '_') (hd4 : d ≠ '-') (hd5 : d ≠ '.') : d ∉ t.render := by
  intro hm
  rcases hnum with ⟨neg, ds, rfl⟩ | ⟨neg, ip, fp, rfl⟩ | ⟨s, rfl⟩
  · obtain ⟨-, hds⟩ := h
    simp only [Tok.render, List.mem_append] at hm
    rcases hm with hm | hm
    · cases neg with
      | true => simp at hm; exact hd4 hm
      | false => simp at hm
    · rw [hds d hm] at hd1; exact absurd hd1 (by simp)
  · obtain ⟨-, hip, hfp⟩ := h
    simp only [Tok.render, List.mem_append] at hm
    rcases hm with (hm | hm) | hm
    · cases neg with
      | true => simp at hm; exact hd4 hm
      | false => simp at hm
    · rw [hip d hm] at hd1; exact absurd hd1 (by simp)
    · rcases List.mem_cons.mp hm with rfl | hm
      · exact hd5 rfl
      · rw [hfp d hm] at hd1; exact absurd hd1 (by simp)
  · obtain ⟨-, hs⟩ := h
    rcases hs d hm with ha | ha
    · rw [ha] at hd2; exact absurd hd2 (by simp)
    · exact hd3 ha

lemma colon_notin_render (t : Tok) (h : TokOk t) : ':' ∉ t.render := by
  cases t with
  | str as =>
    intro hm
    rw [show (Tok.str as).render = ('"' :: (as.map Atom.render).flatten) ++ ['"'] from rfl] at hm
    rcases List.mem_append.mp hm with hm | hm
    · rcases List.mem_cons.mp hm with hq | hm
      · exact absurd hq (by decide)
      · rcases List.mem_flatten.mp hm with ⟨l, hl, hcl⟩
        rcases List.mem_map.mp hl with ⟨a, ha, rfl⟩
        rcases a with c | c
        · obtain ⟨-, -, h3, -⟩ := h _ ha
          simp only [Atom.render, List.mem_singleton] at hcl
          exact h3 hcl.symm
        · obtain ⟨h3, -⟩ := h _ ha
          simp only [Atom.render, List.mem_cons] at hcl
          rcases hcl with hq | hq
          · exact absurd hq (by decide)
          · have hq2 : ':' = c := by simpa using hq
            exact h3 hq2.symm
    · rcases List.mem_cons.mp hm with hq | hm
      · exact absurd hq (by decide)
      · simp at hm
  | arr es =>
    intro hm
    rw [show (Tok.arr es).render = ('[' :: renderElems es) ++ [']'] from rfl] at hm
    rcases List.mem_append.mp hm with hm | hm
    · rcases List.mem_cons.mp hm with hq | hm
      · exact absurd hq (by decide)
      · rcases mem_renderElems hm with hq | hq | ⟨e, he, hce⟩
        · exact absurd hq (by decide)
        · exact absurd hq (by decide)
        · obtain ⟨-, he2⟩ := h e he
          exact (he2 _ hce).2.2.1 rfl
    · rcases List.mem_cons.mp hm with hq | hm
      · exact absurd hq (by decide)
      · simp at hm
  | intLit neg ds =>
    exact notin_render_num _ h (Or.inl ⟨neg, ds, rfl⟩) ':'
      (by decide) (by decide) (by decide) (by decide) (by decide)
  | floatLit neg ip fp =>
    exact notin_render_num _ h (Or.inr (Or.inl ⟨neg, ip, fp, rfl⟩)) ':'
      (by decide) (by decide) (by decide) (by decide) (by decide)
  | ident s =>
    exact notin_render_num _ h (Or.inr (Or.inr ⟨s, rfl⟩)) ':'
      (by decide) (by decide) (by decide) (by decide) (by decide)

lemma colon_notin_renderArgs (toks : List Tok) (h : ∀ t ∈ toks, TokOk t) :
    ':' ∉ renderArgs toks := by
  induction toks with
  | nil => simp [renderArgs]
  | cons t rest ih =>
    cases rest with
    | nil =>
      show ':' ∉ t.render
      exact colon_notin_render t (h t (List.mem_cons_self _ _))
    | cons t2 rest2 =>
      show ':' ∉ t.render ++ ',' :: renderArgs (t2 :: rest2)
      intro hm
      rcases List.mem_append.mp hm with hm | hm
      · exact colon_notin_render t (h t (List.mem_cons_self _ _)) hm
      · rcases List.mem_cons.mp hm with hq | hm
        · exact absurd hq (by decide)
        · exact ih (fun x hx => h x (List.mem_cons_of_mem _ hx)) hm

lemma rb_notin_render_str {as : List Atom} (h : ∀ a ∈ as, AtomOk a) :
    ']' ∉ (Tok.str as).render := by
  intro hm
  rw [show (Tok.str as).render = ('"' :: (as.map Atom.render).flatten) ++ ['"'] from rfl] at hm
  rcases List.mem_append.mp hm with hm | hm
  · rcases List.mem_cons.mp hm with hq | hm
    · exact absurd hq (by decide)
    · rcases List.mem_flatten.mp hm with ⟨l, hl, hcl⟩
      rcases List.mem_map.mp hl with ⟨a, ha, rfl⟩
      rcases a with c | c
      · obtain ⟨-, -, -, h4⟩ := h _ ha
        have hq2 : ']' = c := by simpa [Atom.render] using hcl
        exact h4 hq2.symm
      · obtain ⟨-, h4⟩ := h _ ha
        simp only [Atom.render, List.mem_cons] at hcl
        rcases hcl with hq | hq
        · exact absurd hq (by decide)
        · have hq2 : ']' = c := by simpa using hq
          exact h4 hq2.symm
  · rcases List.mem_cons.mp hm with hq | hm
    · exact absurd hq (by decide)
    · simp at hm

lemma rb_notin_renderElems {es : List (List Char)} (h : ∀ e ∈ es, elemOk e) :
    ']' ∉ renderElems es := by
  intro hm
  rcases mem_renderElems hm with hq | hq | ⟨e, he, hce⟩
  · exact absurd hq (by decide)
  · exact absurd hq (by decide)
  · exact ((h e he).2 _ hce).2.2.2 rfl

/-- The rendered element list of a nonempty array ends with the closing
quote of its last element. -/
lemma getLast?_renderElems {e : List Char} {es : List (List Char)} :
    (renderElems (e :: es)).getLast? = some '"' := by
  induction es generalizing e with
  | nil => rw [show renderElems [e] = ('"' :: e) ++ ['"'] from rfl, List.getLast?_concat]
  | cons e2 rest ih =>
    rw [show renderElems (e :: e2 :: rest)
      = (('"' :: e) ++ ['"']) ++ ',' :: renderElems (e2 :: rest) from rfl]
    rw [List.getLast?_append, List.getLast?_cons, ih]
    rfl

lemma chain_render (t : Tok) (h : TokOk t) : List.Chain' sub2Safe t.render := by
  cases t with
  | str as => exact chain'_sub2Safe_of_no_rb (rb_notin_render_str h)
  | arr es =>
    rw [show (Tok.arr es).render = ('[' :: renderElems es) ++ [']'] from rfl]
    refine List.chain'_append.mpr ⟨?_, List.chain'_singleton _, ?_⟩
    · refine chain'_sub2Safe_of_no_rb ?_
      intro hm
      rcases List.mem_cons.mp hm with hq | hm
      · exact absurd hq (by decide)
      · exact rb_notin_renderElems h hm
    · intro x hx y hy
      have hy2 : ']' = y := by simpa using hy
      subst hy2
      cases es with
      | nil =>
        have hx2 : '[' = x := by
          simpa [show ('[' :: renderElems []).getLast? = some '[' from rfl] using hx
        subst hx2
        exact fun hc => by rcases hc.2 with hq | hq <;> exact absurd hq (by decide)
      | cons e rest =>
        rw [Option.mem_def, List.getLast?_cons, getLast?_renderElems] at hx
        have hx2 : '"' = x := Option.some.inj hx
        subst hx2
        exact fun hc => by rcases hc.2 with hq | hq <;> exact absurd hq (by decide)
  | intLit neg ds =>
    exact chain'_sub2Safe_of_no_rb (notin_render_num _ h (Or.inl ⟨neg, ds, rfl⟩) ']'
      (by decide) (by decide) (by decide) (by decide) (by decide))
  | floatLit neg ip fp =>
    exact chain'_sub2Safe_of_no_rb (notin_render_num _ h (Or.inr (Or.inl ⟨neg, ip, fp, rfl⟩)) ']'
      (by decide) (by decide) (by decide) (by decide) (by decide))
  | ident s =>
    exact chain'_sub2Safe_of_no_rb (notin_render_num _ h (Or.inr (Or.inr ⟨s, rfl⟩)) ']'
      (by decide) (by decide) (by decide) (by decide) (by decide))

/-- The first character of a rendered token is never `]`. -/
lemma head_render_ne_rb (t : Tok) (h : TokOk t) :
    ∀ c ∈ t.render.head?, c ≠ ']' := by
  intro c hc
  have hmem : c ∈ t.render := List.mem_of_mem_head? hc
  cases t with
  | str as =>
    rw [Option.mem_def, show (Tok.str as).render.head? = some '"' from rfl] at hc
    obtain rfl : '"' = c := Option.some.inj hc
    decide
  | arr es =>
    rw [Option.mem_def, show (Tok.arr es).render.head? = some '[' from rfl] at hc
    obtain rfl : '[' = c := Option.some.inj hc
    decide
  | intLit neg ds =>
    exact fun he => notin_render_num _ h (Or.inl ⟨neg, ds, rfl⟩) ']'
      (by decide) (by decide) (by decide) (by decide) (by decide) (he ▸ hmem)
  | floatLit neg ip fp =>
    exact fun he => notin_render_num _ h (Or.inr (Or.inl ⟨neg, ip, fp, rfl⟩)) ']'
      (by decide) (by decide) (by decide) (by decide) (by decide) (he ▸ hmem)
  | ident s =>
    exact fun he => notin_render_num _ h (Or.inr (Or.inr ⟨s, rfl⟩)) ']'
      (by decide) (by decide) (by decide) (by decide) (by decide) (he ▸ hmem)

/-- A well-formed rendered blob never has `]` directly after a comma or
whitespace, so the trailing-comma `re.sub` leaves it unchanged. -/
lemma chain_renderArgs (toks : List Tok) (h : ∀ t ∈ toks, TokOk t) :
    List.Chain' sub2Safe (renderArgs toks) := by
  induction toks with
  | nil => exact List.chain'_nil
  | cons t rest ih =>
    cases rest with
    | nil => exact chain_render t (h t (List.mem_cons_self _ _))
    | cons t2 rest2 =>
      show List.Chain' sub2Safe (t.render ++ ',' :: renderArgs (t2 :: rest2))
      rw [show (',' :: renderArgs (t2 :: rest2)) = [','] ++ renderArgs (t2 :: rest2) from rfl,
        ← List.append_assoc]
      refine List.chain'_append.mpr ⟨?_, ih (fun x hx => h x (List.mem_cons_of_mem _ hx)), ?_⟩
      · refine List.chain'_append.mpr
          ⟨chain_render t (h t (List.mem_cons_self _ _)), List.chain'_singleton _, ?_⟩
        intro x hx y hy
        have hy2 : ',' = y := by simpa using hy
        exact sub2Safe_of_ne (by simp [← hy2])
      · intro x hx y hy
        rw [List.getLast?_concat, Option.mem_def] at hx
        obtain rfl : ',' = x := Option.some.inj hx
        have hyh : y ∈ (renderArgs (t2 :: rest2)).head? := hy
        have hhead : (renderArgs (t2 :: rest2)).head? = (t2.render).head? := by
          cases rest2 with
          | nil => rfl
          | cons t3 rest3 =>
            show ((t2.render ++ ',' :: renderArgs (t3 :: rest3)).head?) = _
            rw [List.head?_append]
            cases hh : t2.render.head? with
            | none =>
              exact absurd (List.head?_eq_none_iff.mp hh)
                (render_ne_nil t2 (h t2 (List.mem_cons_of_mem _ (List.mem_cons_self _ _))))
            | some z => rfl
        rw [hhead] at hyh
        exact sub2Safe_of_ne
          (head_render_ne_rb t2 (h t2 (List.mem_cons_of_mem _ (List.mem_cons_self _ _))) y hyh)

/-! ## `re.findall(r'"([^"]+)"')` on rendered array elements -/

lemma faAux_content (e : List Char) (he : ∀ c ∈ e, c ≠ '"') :
    ∀ acc rest, faAux (e ++ rest) (some acc) = faAux rest (some (e.reverse ++ acc)) := by
  induction e with
  | nil => intro acc rest; simp
  | cons c t ih =>
    intro acc rest
    have hc : c ≠ '"' := he c (List.mem_cons_self _ _)
    show faAux (c :: (t ++ rest)) (some acc) = _
    rw [show faAux (c :: (t ++ rest)) (some acc) = faAux (t ++ rest) (some (c :: acc)) by
      simp [faAux, hc]]
    rw [ih (fun x hx => he x (List.mem_cons_of_mem _ hx)) (c :: acc) rest]
    simp

lemma findall_renderElems (es : List (List Char)) (h : ∀ e ∈ es, elemOk e) :
    findallQuoted (renderElems es) = es.map List.asString := by
  induction es with
  | nil => rfl
  | cons e rest ih =>
    obtain ⟨hne, he⟩ := h e (List.mem_cons_self _ _)
    have he2 : ∀ c ∈ e, c ≠ '"' := fun c hc => (he c hc).1
    have hrev : ¬e.reverse ++ [] = [] := by simp [hne]
    cases rest with
    | nil =>
      show faAux (('"' :: e) ++ ['"']) none = _
      rw [show (('"' :: e) ++ ['"']) = '"' :: (e ++ ['"']) from rfl]
      rw [show faAux ('"' :: (e ++ ['"'])) none = faAux (e ++ ['"']) (some []) by
        simp [faAux]]
      rw [faAux_content e he2 [] ['"']]
      rw [show faAux ['"'] (some (e.reverse ++ []))
        = (e.reverse ++ []).reverse.asString :: faAux [] none by
          simp [faAux, hne]]
      simp [faAux]
    | cons e2 rest2 =>
      show faAux ((('"' :: e) ++ ['"']) ++ ',' :: renderElems (e2 :: rest2)) none = _
      rw [show ((('"' :: e) ++ ['"']) ++ ',' :: renderElems (e2 :: rest2))
        = '"' :: (e ++ ('"' :: (',' :: renderElems (e2 :: rest2)))) by simp]
      rw [show faAux ('"' :: (e ++ ('"' :: (',' :: renderElems (e2 :: rest2))))) none
        = faAux (e ++ ('"' :: (',' :: renderElems (e2 :: rest2)))) (some []) by
          simp [faAux]]
      rw [faAux_content e he2 [] _]
      rw [show faAux ('"' :: (',' :: renderElems (e2 :: rest2))) (some (e.reverse ++ []))
        = (e.reverse ++ []).reverse.asString :: faAux (',' :: renderElems (e2 :: rest2)) none by
          simp [faAux, hne]]
      rw [show faAux (',' :: renderElems (e2 :: rest2)) none
        = faAux (renderElems (e2 :: rest2)) none by simp [faAux]]
      rw [show faAux (renderElems (e2 :: rest2)) none = findallQuoted (renderElems (e2 :: rest2))
        from rfl]
      rw [ih (fun x hx => h x (List.mem_cons_of_mem _ hx))]
      simp

/-! ## Per-token cleaning correctness -/

lemma noConsecUS_of_digits {l : List Char} (h : ∀ c ∈ l, c.isDigit = true) :
    noConsecUS l = true := by
  induction l with
  | nil => rfl
  | cons a t ih =>
    cases t with
    | nil => rfl
    | cons b t2 =>
      have ha : a ≠ '_' := isDigit_ne (h a (List.mem_cons_self _ _)) '_' (by decide)
      simp only [noConsecUS, Bool.and_eq_true, decide_eq_true_eq]
      refine ⟨by simp [ha], ih (fun c hc => h c (List.mem_cons_of_mem _ hc))⟩

lemma digitRunOk_of_digits {l : List Char} (hne : l ≠ [])
    (h : ∀ c ∈ l, c.isDigit = true) : digitRunOk l = true := by
  unfold digitRunOk
  cases l with
  | nil => exact absurd rfl hne
  | cons a t =>
    have hhead : a.isDigit = true := h a (List.mem_cons_self _ _)
    have hlast : ((a :: t).getLast (by simp)).isDigit = true :=
      h _ (List.getLast_mem (by simp))
    simp only [Bool.and_eq_true, decide_eq_true_eq]
    refine ⟨⟨⟨⟨by simp, ?_⟩, ?_⟩, ?_⟩, noConsecUS_of_digits h⟩
    · exact List.all_eq_true.mpr (fun c hc => by simp [h c hc])
    · simp [hhead]
    · rw [List.getLast?_eq_getLast _ (by simp)]
      simpa using hlast

lemma digitsOnly_of_digits {l : List Char} (h : ∀ c ∈ l, c.isDigit = true) :
    digitsOnly l = l :=
  List.filter_eq_self.mpr (fun c hc => by
    simp [isDigit_ne (h c hc) '_' (by decide)])

lemma isDigitUS_of_digit {c : Char} (h : c.isDigit = true) : isDigitUS c = true := by
  simp [isDigitUS, h]

lemma dot_notin_intLit {neg : Bool} {ds : List Char} (h : TokOk (.intLit neg ds)) :
    '.' ∉ (Tok.intLit neg ds).render := by
  intro hm
  obtain ⟨-, hds⟩ := h
  simp only [Tok.render, List.mem_append] at hm
  rcases hm with hm | hm
  · cases neg with
    | true => simp at hm
    | false => simp at hm
  · exact absurd (hds '.' hm) (by decide)

lemma dot_notin_ident {s : List Char} (h : TokOk (.ident s)) :
    '.' ∉ (Tok.ident s).render := by
  intro hm
  obtain ⟨-, hs⟩ := h
  rcases hs '.' hm with ha | ha
  · exact absurd ha (by decide)
  · exact absurd ha (by decide)

lemma dot_in_floatLit {neg : Bool} {ip fp : List Char} :
    '.' ∈ (Tok.floatLit neg ip fp).render := by
  simp only [Tok.render, List.mem_append]
  exact Or.inr (List.mem_cons_self _ _)

/-- Evaluation of `pyInt?` on a rendered integer literal. -/
lemma pyInt?_render {neg : Bool} {ds : List Char} (hne : ds ≠ [])
    (h : ∀ c ∈ ds, c.isDigit = true) :
    pyInt? ((if neg then ['-'] else []) ++ ds)
      = some (if neg then -(natOfDigits ds : Int) else (natOfDigits ds : Int)) := by
  have hrun := digitRunOk_of_digits hne h
  have honly := digitsOnly_of_digits h
  cases neg with
  | true =>
    show pyInt? ('-' :: ds) = _
    simp [pyInt?, splitSign, hrun, honly]
  | false =>
    show pyInt? ds = _
    cases ds with
    | nil => exact absurd rfl hne
    | cons d t =>
      have hd : d.isDigit = true := h d (List.mem_cons_self _ _)
      have h1 : d ≠ '+' := isDigit_ne hd '+' (by decide)
      have h2 : d ≠ '-' := isDigit_ne hd '-' (by decide)
      simp [pyInt?, splitSign, h1, h2, hrun, honly]

/-- Evaluation of `pyFloat?` on a rendered decimal literal without
exponent. -/
lemma pyFloat?_render {neg : Bool} {ip fp : List Char} (hne : ¬(ip = [] ∧ fp = []))
    (hip : ∀ c ∈ ip, c.isDigit = true) (hfp : ∀ c ∈ fp, c.isDigit = true) :
    pyFloat? ((if neg then ['-'] else []) ++ ip ++ '.' :: fp)
      = some ((if neg then (-1 : ℚ) else 1) * mantissaVal ip fp) := by
  have hipUS : ∀ c ∈ ip, isDigitUS c = true := fun c hc => isDigitUS_of_digit (hip c hc)
  have hfpUS : ∀ c ∈ fp, isDigitUS c = true := fun c hc => isDigitUS_of_digit (hfp c hc)
  have htake : (ip ++ '.' :: fp).takeWhile isDigitUS = ip := by
    rw [takeWhile_all_append hipUS, List.takeWhile_cons]
    simp [isDigitUS]
  have hdrop : (ip ++ '.' :: fp).dropWhile isDigitUS = '.' :: fp := by
    rw [dropWhile_all_append hipUS, List.dropWhile_cons]
    simp [isDigitUS]
  have htakef : fp.takeWhile isDigitUS = fp := takeWhile_all hfpUS
  have hdropf : fp.dropWhile isDigitUS = [] := dropWhile_all hfpUS
  have hipok : ip = [] ∨ digitRunOk ip = true := by
    cases hip2 : ip with
    | nil => exact Or.inl rfl
    | cons a t => exact Or.inr (digitRunOk_of_digits (by simp) (hip2 ▸ hip))
  have hfpok : fp = [] ∨ digitRunOk fp = true := by
    cases hfp2 : fp with
    | nil => exact Or.inl rfl
    | cons a t => exact Or.inr (digitRunOk_of_digits (by simp) (hfp2 ▸ hfp))
  have hsign : splitSign ((if neg then ['-'] else []) ++ ip ++ '.' :: fp)
      = (neg, ip ++ '.' :: fp) := by
    cases neg with
    | true => simp [splitSign]
    | false =>
      cases hip2 : ip with
      | nil => simp [splitSign]
      | cons d t =>
        have hd : d.isDigit = true := hip d (hip2 ▸ List.mem_cons_self _ _)
        have h1 : d ≠ '+' := isDigit_ne hd '+' (by decide)
        have h2 : d ≠ '-' := isDigit_ne hd '-' (by decide)
        simp [splitSign, h1, h2]
  simp only [pyFloat?, hsign]
  rw [htake, hdrop, List.tail_cons, htakef, hdropf]
  rw [if_pos hipok, if_neg (by simp : ¬(('.' : Char) :: fp = []))]
  simp [hfpok, hne]

lemma pyInt?_ident {s : List Char} (hne : s ≠ [])
    (hs : ∀ c ∈ s, c.isAlpha = true ∨ c = '_') : pyInt? s = none := by
  cases s with
  | nil => exact absurd rfl hne
  | cons c t =>
    have hc := hs c (List.mem_cons_self _ _)
    have h1 : c ≠ '+' := isAlphaUS_ne hc '+' (by decide) (by decide)
    have h2 : c ≠ '-' := isAlphaUS_ne hc '-' (by decide) (by decide)
    have hcd : c.isDigit = false := by
      rcases hc with hca | hca
      · exact isAlpha_not_digit hca
      · subst hca; decide
    have hrun : digitRunOk (c :: t) = false := by
      simp [digitRunOk, hcd]
    simp [pyInt?, splitSign, h1, h2, hrun]

/-- Cleaning one rendered token recovers exactly the value the literal
denotes. -/
lemma cleanParam_render (t : Tok) (h : TokOk t) : cleanParam t.render = Tok.val t := by
  unfold cleanParam
  rw [strip_render t h]
  cases t with
  | str as =>
    have hcond : (Tok.str as).render.head? = some '"' ∧
        (Tok.str as).render.getLast? = some '"' :=
      ⟨rfl, by rw [show (Tok.str as).render
        = ('"' :: (as.map Atom.render).flatten) ++ ['"'] from rfl, List.getLast?_concat]⟩
    unfold cleanParamCore
    rw [if_pos hcond]
    rw [show (Tok.str as).render.drop 1 = (as.map Atom.render).flatten ++ ['"'] from rfl,
      List.dropLast_concat]
    rfl
  | arr es =>
    have hcond1 : ¬((Tok.arr es).render.head? = some '"' ∧
        (Tok.arr es).render.getLast? = some '"') := by
      rintro ⟨h1, -⟩
      rw [show (Tok.arr es).render.head? = some '[' from rfl] at h1
      exact absurd (Option.some.inj h1) (by decide)
    have hcond2 : (Tok.arr es).render.head? = some '[' ∧
        (Tok.arr es).render.getLast? = some ']' :=
      ⟨rfl, by rw [show (Tok.arr es).render
        = ('[' :: renderElems es) ++ [']'] from rfl, List.getLast?_concat]⟩
    unfold cleanParamCore
    rw [if_neg hcond1, if_pos hcond2]
    rw [show (Tok.arr es).render.drop 1 = renderElems es ++ [']'] from rfl,
      List.dropLast_concat, findall_renderElems es h]
    rfl
  | intLit neg ds =>
    have hq : '"' ∉ (Tok.intLit neg ds).render :=
      notin_render_num _ h (Or.inl ⟨neg, ds, rfl⟩) '"'
        (by decide) (by decide) (by decide) (by decide) (by decide)
    have hlb : '[' ∉ (Tok.intLit neg ds).render :=
      notin_render_num _ h (Or.inl ⟨neg, ds, rfl⟩) '['
        (by decide) (by decide) (by decide) (by decide) (by decide)
    have hcond1 : ¬((Tok.intLit neg ds).render.head? = some '"' ∧
        (Tok.intLit neg ds).render.getLast? = some '"') := by
      rintro ⟨h1, -⟩
      exact hq (List.mem_of_mem_head? (Option.mem_def.mpr h1))
    have hcond2 : ¬((Tok.intLit neg ds).render.head? = some '[' ∧
        (Tok.intLit neg ds).render.getLast? = some ']') := by
      rintro ⟨h1, -⟩
      exact hlb (List.mem_of_mem_head? (Option.mem_def.mpr h1))
    unfold cleanParamCore
    rw [if_neg hcond1, if_neg hcond2, if_neg (dot_notin_intLit h)]
    rw [show (Tok.intLit neg ds).render = (if neg then ['-'] else []) ++ ds from rfl,
      pyInt?_render h.1 h.2]
    rfl
  | floatLit neg ip fp =>
    have hq : '"' ∉ (Tok.floatLit neg ip fp).render :=
      notin_render_num _ h (Or.inr (Or.inl ⟨neg, ip, fp, rfl⟩)) '"'
        (by decide) (by decide) (by decide) (by decide) (by decide)
    have hlb : '[' ∉ (Tok.floatLit neg ip fp).render :=
      notin_render_num _ h (Or.inr (Or.inl ⟨neg, ip, fp, rfl⟩)) '['
        (by decide) (by decide) (by decide) (by decide) (by decide)
    have hcond1 : ¬((Tok.floatLit neg ip fp).render.head? = some '"' ∧
        (Tok.floatLit neg ip fp).render.getLast? = some '"') := by
      rintro ⟨h1, -⟩
      exact hq (List.mem_of_mem_head? (Option.mem_def.mpr h1))
    have hcond2 : ¬((Tok.floatLit neg ip fp).render.head? = some '[' ∧
        (Tok.floatLit neg ip fp).render.getLast? = some ']') := by
      rintro ⟨h1, -⟩
      exact hlb (List.mem_of_mem_head? (Option.mem_def.mpr h1))
    unfold cleanParamCore
    rw [if_neg hcond1, if_neg hcond2, if_pos dot_in_floatLit]
    rw [show (Tok.floatLit neg ip fp).render
      = (if neg then ['-'] else []) ++ ip ++ '.' :: fp from rfl,
      pyFloat?_render h.1 h.2.1 h.2.2]
    rfl
  | ident s =>
    obtain ⟨hne, hs⟩ := h
    have hq : '"' ∉ (Tok.ident s).render := by
      intro hm
      rcases hs '"' hm with hca | hca
      · exact absurd hca (by decide)
      · exact absurd hca (by decide)
    have hlb : '[' ∉ (Tok.ident s).render := by
      intro hm
      rcases hs '[' hm with hca | hca
      · exact absurd hca (by decide)
      · exact absurd hca (by decide)
    have hcond1 : ¬((Tok.ident s).render.head? = some '"' ∧
        (Tok.ident s).render.getLast? = some '"') := by
      rintro ⟨h1, -⟩
      exact hq (List.mem_of_mem_head? (Option.mem_def.mpr h1))
    have hcond2 : ¬((Tok.ident s).render.head? = some '[' ∧
        (Tok.ident s).render.getLast? = some ']') := by
      rintro ⟨h1, -⟩
      exact hlb (List.mem_of_mem_head? (Option.mem_def.mpr h1))
    unfold cleanParamCore
    rw [if_neg hcond1, if_neg hcond2, if_neg (dot_notin_ident ⟨hne, hs⟩)]
    rw [show (Tok.ident s).render = s from rfl, pyInt?_ident hne hs]
    rfl

/-- Full extraction pipeline on a well-formed rendered blob. -/
lemma cleanedValues_renderArgs (toks : List Tok) (hne : toks ≠ [])
    (h : ∀ t ∈ toks, TokOk t) :
    cleanedValues (renderArgs toks) = toks.map Tok.val := by
  unfold cleanedValues
  rw [sub1_no_colon (colon_notin_renderArgs toks h),
    sub2_chain _ (chain_renderArgs toks h),
    scanParams_renderArgs toks hne h, List.map_map]
  exact List.map_congr_left (fun t ht => cleanParam_render t (h t ht))

/-- C1: for every well-formed argument blob with at least 13 top-level
positional segments, extraction followed by positional mapping recovers
exactly the literal values present: a quoted segment becomes its unquoted
string content, a bracketed segment the ordered sequence of its quoted
sub-strings, a bare numeric segment the corresponding float (with a
decimal point) or integer, any other segment passes through verbatim; and
the mapped record holds exactly the values at positions 0 (id), 1 (moves),
2 (starting position), 3 (winner), 4 (variant), 5 (status text),
6 (player name), 11 (role), 12 (turn). -/
theorem c1_extract_roundtrip (toks : List Tok)
    (hok : ∀ t ∈ toks, TokOk t) (hlen : 13 ≤ toks.length) :
    cleanedValues (renderArgs toks) = toks.map Tok.val ∧
    parseGameArgs (renderArgs toks) = some
      { game_id := (toks.map Tok.val).getD 0 default
        moves := (toks.map Tok.val).getD 1 default
        starting_position := (toks.map Tok.val).getD 2 default
        winner := (toks.map Tok.val).getD 3 default
        variant := (toks.map Tok.val).getD 4 default
        game_status_text := (toks.map Tok.val).getD 5 default
        player_name := (toks.map Tok.val).getD 6 default
        role := (toks.map Tok.val).getD 11 default
        turn := (toks.map Tok.val).getD 12 default } := by
  have hne : toks ≠ [] := by
    intro e
    subst e
    simp at hlen
  have hcv := cleanedValues_renderArgs toks hne hok
  refine ⟨hcv, ?_⟩
  unfold parseGameArgs mapToGame
  rw [hcv, if_pos (by simpa using hlen)]

theorem c1_extract_roundtrip_witness :
    (∀ t ∈ wToks, TokOk t) ∧ 13 ≤ wToks.length ∧
      cleanedValues (renderArgs wToks) = wToks.map Tok.val :=
  ⟨by decide, by decide, (c1_extract_roundtrip wToks (by decide) (by decide)).1⟩

/-- C7: from the captured argument blob, extraction yields no record
exactly when fewer than 13 positional values are recovered; with fewer
than 13 values no record (with guessed or missing fields) is ever
produced. -/
theorem c7_insufficient_fields (blob : List Char) :
    parseGameArgs blob = none ↔ (cleanedValues blob).length < 13 := by
  unfold parseGameArgs mapToGame
  by_cases h13 : 13 ≤ (cleanedValues blob).length
  · rw [if_pos h13]
    simp
    omega
  · rw [if_neg h13]
    simp
    omega

/-- C3: in the single left-to-right scan, a comma is a segment boundary
exactly when the bracket-depth counter is 0, the scanner is not inside a
quoted run and no escape is pending; a backslash-escaped character gets
no special handling; consequently the segment `"a\"b"` is kept as one
segment, and a comma inside a bracketed array does not split the
enclosing segment. -/
theorem c3_scan_boundary :
    (∀ (s : ScanState) (c : Char),
        (scanStep s c).params.length = s.params.length + 1 ↔
          s.escapeNext = false ∧ s.inString = false ∧ s.bracket = 0 ∧ c = ',') ∧
    (∀ (s : ScanState) (c : Char), s.escapeNext = true →
        scanStep s c = { s with current := s.current ++ [c], escapeNext := false }) ∧
    scanParams "\"a\\\"b\",1".data = ["\"a\\\"b\"".data, ['1']] ∧
    scanParams "[\"x,y\"],2".data = ["[\"x,y\"]".data, ['2']] := by
  refine ⟨?_, ?_, by decide, by decide⟩
  · intro s c
    constructor
    · intro hlen
      unfold scanStep at hlen
      split_ifs at hlen with h1 h2 h3 h4 h5 h6
      · simp at hlen
      · simp at hlen
      · simp at hlen
      · simp at hlen
      · simp at hlen
      · obtain ⟨hin, hc, hb⟩ := h6
        exact ⟨by simpa using h1, by simpa using hin, hb, hc⟩
      · simp at hlen
    · rintro ⟨h1, h2, h3, rfl⟩
      have hcond : ¬ScanState.inString s ∧ ',' = ',' ∧ s.bracket = 0 := ⟨by simp [h2], rfl, h3⟩
      simp [scanStep, h1, h2, h3]
  · intro s c h
    simp [scanStep, h]

theorem c3_scan_boundary_witness :
    scanStep ⟨[], ['x'], 0, false, true⟩ ','
      = ⟨[], ['x', ','], 0, false, false⟩ ∧
    (scanStep ⟨[], ['x'], 0, false, false⟩ ',').params.length = 0 + 1 :=
  ⟨c3_scan_boundary.2.1 ⟨[], ['x'], 0, false, true⟩ ',' rfl,
   (c3_scan_boundary.1 ⟨[], ['x'], 0, false, false⟩ ',').mpr ⟨rfl, rfl, rfl, rfl⟩⟩

/-- C2: a `recv` call on a running channel is a total function of what
the bounded wait observed within the timeout `t` (`select`/`queue.get`
both take `t` as their hard deadline, so control returns within `t + ε`):
if no full line became available it fails with `TimeoutError`; if the
stream closed with no data it fails with the peer-closed error; if a full
line arrived it is returned. -/
theorem c2_recv_bounded (st : PState) (h1 : st.alive = true) (h2 : st.started = true) :
    (recv st .timedOut).1 = .error .timeout ∧
    (recv st (.ready "")).1 = .error .peerClosed ∧
    ∀ line : String, line ≠ "" → (recv st (.ready line)).1 = .ok (pyStrip line) := by
  refine ⟨by simp [recv, h1, h2], by simp [recv, h1, h2], ?_⟩
  intro line hl
  simp [recv, h1, h2, hl]

theorem c2_recv_bounded_witness :
    (recv ⟨true, true⟩ .timedOut).1 = .error .timeout ∧
    (recv ⟨true, true⟩ (.ready " a1 \n")).1 = .ok (pyStrip " a1 \n") :=
  ⟨(c2_recv_bounded ⟨true, true⟩ rfl rfl).1,
   (c2_recv_bounded ⟨true, true⟩ rfl rfl).2.2 " a1 \n" (by decide)⟩

/-- C9: a successful `recv` returns the raw line with all leading and
trailing whitespace stripped (`str.strip()`), not only the newline; in
particular a peer answer of `" a1 \n"` reaches the caller as `"a1"`. -/
theorem c9_recv_strips :
    (∀ (st : PState) (line : String), st.alive = true → st.started = true →
      line ≠ "" → (recv st (.ready line)).1 = .ok (pyStrip line)) ∧
    pyStrip " a1 \n" = "a1" := by
  refine ⟨?_, by decide⟩
  intro st line h1 h2 hl
  simp [recv, h1, h2, hl]

theorem c9_recv_strips_witness :
    (recv ⟨true, true⟩ (.ready " a1 \n")).1 = .ok (pyStrip " a1 \n") :=
  c9_recv_strips.1 ⟨true, true⟩ " a1 \n" rfl rfl (by decide)

/-- C10: `send` does not enforce the no-embedded-newlines invariant: the
string is written verbatim, with exactly one `\n` appended only when it
does not already end with one; a single send of `"a\nb"` therefore
delivers two lines to the peer. -/
theorem c10_send_payload :
    (∀ data : String, data.data.getLast? = some '\n' → sendPayload data = data) ∧
    (∀ data : String, ¬data.data.getLast? = some '\n' →
      sendPayload data = data ++ "\n") ∧
    sendPayload "a\nb" = "a\nb\n" ∧ 2 ≤ countNewlines (sendPayload "a\nb") := by
  refine ⟨?_, ?_, by decide, by decide⟩
  · intro d hd
    simp [sendPayload, hd]
  · intro d hd
    simp [sendPayload, hd]

theorem c10_send_payload_witness :
    sendPayload "x\n" = "x\n" ∧ sendPayload "a\nb" = "a\nb" ++ "\n" :=
  ⟨c10_send_payload.1 "x\n" (by decide), c10_send_payload.2.1 "a\nb" (by decide)⟩

/-- C5 (amended): the alive flag follows the specified state machine,
except that on the win32 receive branch a read I/O error is re-raised as
a `RuntimeError` and leaves the flag unchanged.  From Running, an I/O
error during send, a receive timeout on either branch (`TimeoutError` is
an `OSError` in Python 3, so the handler clears the flag), a receive I/O
error on the POSIX branch, and a process exit detected by `check_alive`
all leave the channel not-alive; from not-alive, none of send, receive
(either branch), `check_alive` or `kill` ever revives it — only a
restart whose spawn succeeds does; and `kill` always leaves a channel
satisfying the alive-implies-started invariant not-running. -/
theorem c5_state_machine :
    (∀ (st : PState) (d : String), st.alive = true → st.started = true →
      (send st d false).2.alive = false ∧
      (recv st .timedOut).2.alive = false ∧
      (recv st .ioErr).2.alive = false ∧
      (recvWin st .timedOut).2.alive = false ∧
      (recvWin st .ioErr).2 = st ∧
      (checkAlive st true).2.alive = false) ∧
    (∀ (st : PState) (d : String) (ok : Bool) (ev : RecvEvent) (ex : Bool),
      st.alive = false →
      (send st d ok).2.alive = false ∧ (recv st ev).2.alive = false ∧
      (recvWin st ev).2.alive = false ∧
      (checkAlive st ex).2.alive = false ∧ (kill st).alive = false) ∧
    (∀ (st : PState) (ok : Bool), (restart st ok).2.alive = ok) ∧
    (∀ st : PState, (st.alive = true → st.started = true) → (kill st).alive = false) := by
  refine ⟨?_, ?_, ?_, ?_⟩
  · intro st d h1 h2
    exact ⟨by simp [send, h1, h2], by simp [recv, h1, h2], by simp [recv, h1, h2],
      by simp [recvWin, h1, h2], by simp [recvWin, h1, h2], by simp [checkAlive, h2]⟩
  · intro st d ok ev ex h1
    refine ⟨by simp [send, h1], by simp [recv, h1], by simp [recvWin, h1], ?_, ?_⟩
    · unfold checkAlive
      split_ifs <;> simp [h1]
    · unfold kill
      split_ifs <;> simp [h1]
  · intro st ok
    cases ok with
    | true => simp [restart, start]
    | false => simp [restart, start]
  · intro st hinv
    unfold kill
    split_ifs with hs
    · simp
    · cases ha : st.alive with
      | false => rfl
      | true => exact absurd (hinv ha) hs

/-- C5 counterexample to the claim as stated: on the win32 receive
branch, an I/O error during receive surfaces as the wrapped
`RuntimeError`, and a Running channel stays alive — the "every I/O error
during receive degrades" transition does not hold there. -/
theorem c5_state_machine_counterexample :
    (recvWin ⟨true, true⟩ .ioErr).1 = .error .readWrapped ∧
    (recvWin ⟨true, true⟩ .ioErr).2.alive = true :=
  ⟨rfl, rfl⟩

theorem c5_state_machine_witness :
    ((send ⟨true, true⟩ "x" false).2.alive = false ∧
     (recv ⟨true, true⟩ .timedOut).2.alive = false ∧
     (recv ⟨true, true⟩ .ioErr).2.alive = false ∧
     (recvWin ⟨true, true⟩ .timedOut).2.alive = false ∧
     (recvWin ⟨true, true⟩ .ioErr).2 = ⟨true, true⟩ ∧
     (checkAlive ⟨true, true⟩ true).2.alive = false) ∧
    (recv ⟨true, false⟩ .timedOut).2.alive = false ∧
    (restart ⟨true, false⟩ true).2.alive = true ∧
    (kill ⟨true, true⟩).alive = false :=
  ⟨c5_state_machine.1 ⟨true, true⟩ "x" rfl rfl,
   (c5_state_machine.2.1 ⟨true, false⟩ "x" true .timedOut true rfl).2.1,
   c5_state_machine.2.2.1 ⟨true, false⟩ true,
   c5_state_machine.2.2.2 ⟨true, true⟩ (fun _ => rfl)⟩

/-- C4: after removing the prompt decoration `"Board > "` (as
`str.replace` does), an engine response is accepted and returned exactly
when the remainder has exactly two characters; an empty response yields
no move.  Against a process answering `"Board > a1\n"` the round-trip of
`get_ai_move` returns `"a1"`, and `"Board > a1x\n"` is rejected. -/
theorem c4_move_shape :
    (∀ resp m : String, validateMove resp = some m ↔
      (resp ≠ "" ∧ m = (removeAll promptChars resp.data).asString ∧ m.length = 2)) ∧
    validateMove "" = none ∧
    (getAiMove ⟨true, true⟩ "a1"
      ⟨false, true, true, .ready "Board > a1\n", true⟩).1 = some "a1" ∧
    (getAiMove ⟨true, true⟩ "a1"
      ⟨false, true, true, .ready "Board > a1x\n", true⟩).1 = none := by
  refine ⟨?_, rfl, by decide, by decide⟩
  intro resp m
  simp only [validateMove]
  by_cases hr : resp = ""
  · simp [hr]
  · rw [if_neg hr]
    by_cases hm : ((removeAll promptChars resp.data).asString).length = 2
    · rw [if_pos hm]
      constructor
      · intro he
        have hme := Option.some.inj he
        subst hme
        exact ⟨hr, rfl, hm⟩
      · rintro ⟨-, rfl, -⟩
        rfl
    · rw [if_neg hm]
      constructor
      · intro he
        exact absurd he (by simp)
      · rintro ⟨-, rfl, hm2⟩
        exact absurd hm2 hm

theorem c4_move_shape_witness :
    validateMove "Board > a1" = some "a1" :=
  (c4_move_shape.1 "Board > a1" "a1").mpr ⟨by decide, by decide, by decide⟩

/-- C8: `get_ai_move` never raises to its caller and never retries: for
every channel state and every oracle outcome it performs at most one
`interactive` round-trip, and on every failure path — dead channel,
failed proactive restart, write error, receive timeout, peer close, read
error — it returns `None` (at most restarting the process for the *next*
request). -/
theorem c8_no_retry_none_on_failure :
    (∀ (st : PState) (pos : String) (o : Oracles), (getAiMove st pos o).2.2 ≤ 1) ∧
    (∀ (st : PState) (pos : String) (o : Oracles),
      st.alive = false → getAiMove st pos o = (none, st, 0)) ∧
    (∀ (st : PState) (pos : String) (o : Oracles),
      (o.sendOk = false ∨ o.recvEv = .timedOut ∨ o.recvEv = .ready "" ∨
        o.recvEv = .ioErr ∨ (o.procExited = true ∧ o.restart1Ok = false)) →
      (getAiMove st pos o).1 = none) := by
  refine ⟨?_, ?_, ?_⟩
  · rintro ⟨sta, alv⟩ pos ⟨pe, r1, so, ev, r2⟩
    cases alv <;> cases sta <;> cases pe <;> cases r1 <;> cases so <;> cases r2 <;>
      cases ev <;>
      simp [getAiMove, interactStep, send, recv, checkAlive, restart, start, kill] <;>
      split_ifs <;> simp
  · rintro ⟨sta, alv⟩ pos o h
    subst h
    simp [getAiMove]
  · rintro ⟨sta, alv⟩ pos ⟨pe, r1, so, ev, r2⟩ h
    cases alv <;> cases sta <;> cases pe <;> cases r1 <;> cases so <;> cases r2 <;>
      rcases h with h | h | h | h | ⟨h1, h2⟩ <;>
      simp_all <;>
      simp [getAiMove, interactStep, send, recv, checkAlive, restart, start, kill]

theorem c8_no_retry_none_on_failure_witness :
    (getAiMove ⟨true, true⟩ "p" ⟨false, true, true, .timedOut, true⟩).2.2 ≤ 1 ∧
    getAiMove ⟨true, false⟩ "p" ⟨false, true, true, .timedOut, true⟩
      = (none, ⟨true, false⟩, 0) ∧
    (getAiMove ⟨true, true⟩ "p" ⟨false, true, true, .timedOut, true⟩).1 = none :=
  ⟨c8_no_retry_none_on_failure.1 ⟨true, true⟩ "p" ⟨false, true, true, .timedOut, true⟩,
   c8_no_retry_none_on_failure.2.1 ⟨true, false⟩ "p"
     ⟨false, true, true, .timedOut, true⟩ rfl,
   c8_no_retry_none_on_failure.2.2 ⟨true, true⟩ "p"
     ⟨false, true, true, .timedOut, true⟩ (Or.inr (Or.inl rfl))⟩

set_option maxRecDepth 16384 in
/-- C6: the negotiator maps role 1 to `"black"` and any other role to
`"white"`; it queries the engine only when `turn` equals that colour,
with the concatenated move history as position; on success it submits the
move with 1-based index = pre-move history length + 1.  The scenario blob
with id 101 parses to the expected record, it is our turn, and the
position built is `"f5d6"`. -/
theorem c6_negotiator :
    (∀ gi : GameInfo, (pyEqOne gi.role = true → ourColor gi = "black") ∧
      (pyEqOne gi.role = false → ourColor gi = "white")) ∧
    (∀ (gi : GameInfo) (engine : String → Option String),
      pyEqStr gi.turn (ourColor gi) = false → processGame gi engine = .waitOpponent) ∧
    (∀ (gi : GameInfo) (ms : List String) (engine : String → Option String) (mv : String),
      gi.moves = .arr ms → pyEqStr gi.turn (ourColor gi) = true →
      engine (String.join ms) = some mv →
      processGame gi engine = .submit mv (ms.length + 1)) ∧
    parseGameArgs c6Blob = some c6Record ∧
    (∀ engine : String → Option String,
      processGame c6Record engine =
        match engine "f5d6" with
        | some mv => .submit mv 3
        | none => .engineNoMove) := by
  refine ⟨?_, ?_, ?_, by decide, ?_⟩
  · intro gi
    constructor
    · intro h
      simp [ourColor, h]
    · intro h
      simp [ourColor, h]
  · intro gi engine h
    simp [processGame, h]
  · intro gi ms engine mv hm ht he
    simp [processGame, ht, hm, he]
  · intro engine
    have hj : String.join ["f5", "d6"] = "f5d6" := by decide
    show processGame c6Record engine = _
    simp only [processGame, c6Record, ourColor, pyEqOne, pyEqStr]
    rw [if_pos (by decide)]
    rw [show String.join ["f5", "d6"] = "f5d6" from hj]
    cases engine "f5d6" <;> rfl

theorem c6_negotiator_witness :
    processGame c6Record (fun p => some p) = .submit "f5d6" 3 :=
  c6_negotiator.2.2.1 c6Record ["f5", "d6"] (fun p => some p) "f5d6" rfl
    (by decide) (by decide)
